import Mathlib

/-!
# Verification of the taggedpdf structure-analysis core

Shallow embedding of the taggedpdf repository (src/taggedpdf and the
annotation scripts) in Lean 4, together with theorems checking the
natural-language specification against the code.

Coordinates are modelled as rationals (the Python code uses floats, but
every operation involved in the claims is exact arithmetic: min, max,
addition, subtraction, multiplication and division).
Fallible Python code (exceptions) is modelled with Option/Except; a
method that can raise is given an Option/Except result type, with none /
.error standing for the raised exception.
-/

namespace TPdf

/-! ## Geometry primitives: src/taggedpdf/bbox.py

`BBox` is a named tuple of the lower-left and upper-right coordinates.
`BBox.Union`/`BBox.Intersection` act on lists (the Python staticmethods
act on any iterable); the instance methods `union`/`intersection` are
the two-element cases, exactly as in the source.
-/

structure BBox where
  llx : ℚ
  lly : ℚ
  urx : ℚ
  ury : ℚ
deriving DecidableEq, Repr

namespace BBox

def width (b : BBox) : ℚ := b.urx - b.llx

def height (b : BBox) : ℚ := b.ury - b.lly

def area (b : BBox) : ℚ := b.width * b.height

def is_empty (b : BBox) : Bool := b.llx ≥ b.urx || b.lly ≥ b.ury

/-- Component-wise min/max combination used by `BBox.Union`
(`min` of lower-left coordinates, `max` of upper-right ones). -/
def joinBB (a b : BBox) : BBox :=
  ⟨min a.llx b.llx, min a.lly b.lly, max a.urx b.urx, max a.ury b.ury⟩

/-- Component-wise max/min combination used by `BBox.Intersection`. -/
def meetBB (a b : BBox) : BBox :=
  ⟨max a.llx b.llx, max a.lly b.lly, min a.urx b.urx, min a.ury b.ury⟩

/-- `BBox.Union(bboxes)`: `None` on an empty collection, otherwise the
component-wise min/max over all boxes. -/
def Union : List BBox → Option BBox
  | [] => none
  | b :: bs => some (bs.foldl joinBB b)

/-- `BBox.Intersection(bboxes)`: `None` on an empty collection and on an
empty intersection, otherwise the component-wise max/min. -/
def Intersection : List BBox → Option BBox
  | [] => none
  | b :: bs =>
    let isect := bs.foldl meetBB b
    if isect.is_empty then none else some isect

/-- `union(self, other)` (two-element case of `Union`; always a box). -/
def union (a b : BBox) : BBox := joinBB a b

/-- `intersection(self, other)` (two-element case of `Intersection`). -/
def intersection (a b : BBox) : Option BBox :=
  let isect := meetBB a b
  if isect.is_empty then none else some isect

/-- `contains(self, other)`: `self.intersection(other) == other`.
In Python, `None == other` is `False`, so the comparison is modelled on
the `Option` result. -/
def contains (a b : BBox) : Bool := decide (a.intersection b = some b)

/-- `overlaps(self, other)`: `BBox.Intersection((self, other)) is not None`. -/
def overlaps (a b : BBox) : Bool := (Intersection [a, b]).isSome

/-- `jaccard(self, other)`: the source computes
`self.intersection(other).area` without a `None` check, so a pair of
non-overlapping boxes raises `AttributeError` (modelled as `none`). -/
def jaccard (a b : BBox) : Option ℚ :=
  match a.intersection b with
  | none => none
  | some isect => some (isect.area / (a.area + b.area - isect.area))

/-- `relative_overlap(self, other)`: checks the intersection for `None`
explicitly and returns `0` in that case. -/
def relative_overlap (a b : BBox) : ℚ :=
  match a.intersection b with
  | none => 0
  | some isect => isect.area / a.area

def horizontally_overlaps (a b : BBox) : Bool :=
  a.llx < b.urx && b.llx < a.urx

def vertically_overlaps (a b : BBox) : Bool :=
  a.lly < b.ury && b.lly < a.ury

def is_above (a b : BBox) : Bool := a.lly > b.ury

def is_below (a b : BBox) : Bool := is_above b a

def vertical_distance (a b : BBox) : Option ℚ :=
  if is_above a b then some (a.lly - b.ury)
  else if is_above b a then some (b.lly - a.ury)
  else none

def padded (b : BBox) (units : ℚ) : BBox :=
  ⟨b.llx - units, b.lly - units, b.urx + units, b.ury + units⟩

end BBox

/-! ## Annotations and overlap elimination: src/annotate.py

`Annotation` objects are mutable Python objects; object identity is
what the `set`-based elimination uses.  We model a page's annotation
list as a `List Anno` and use the list position as object identity, so
the sets of eliminated objects become lists of indices.
Only the fields read by the functions under verification are modelled
(`type` and `bbox`).
-/

structure Anno where
  type : String
  bbox : BBox
deriving DecidableEq, Repr

/-- Positional access with a default, standing for object lookup by
identity (all uses are in range). -/
def annAt (l : List Anno) (i : Nat) : Anno := l.getD i ⟨"", ⟨0, 0, 0, 0⟩⟩

/-- `find_overlaps(annotations)`: all index pairs `i < j` whose bboxes
overlap, in the nested-loop order of the source. -/
def find_overlaps (l : List Anno) : List (Nat × Nat) :=
  (List.range l.length).flatMap fun i =>
    ((List.range l.length).filter fun j => i < j).filterMap fun j =>
      if BBox.overlaps (annAt l i).bbox (annAt l j).bbox then some (i, j) else none

/-- `find_duplicates(page, overlaps, ignore=None)`: the second member of
every overlapping pair with bit-identical bboxes ("arbitrary choice").
The call in `eliminate_overlaps` passes no `ignore` set, so the
`not in ignore` tests are vacuous and omitted from this model. -/
def find_duplicates (l : List Anno) (ovl : List (Nat × Nat)) : List Nat :=
  ovl.filterMap fun p =>
    if (annAt l p.1).bbox = (annAt l p.2).bbox then some p.2 else none

/-- `find_contained(page, overlaps, ignore)`: for each overlapping pair
with distinct bboxes, the strictly contained one is collected provided
the container is not in `ignore` (the if/elif chain of the source). -/
def find_contained (l : List Anno) (ovl : List (Nat × Nat)) (ignore : List Nat) :
    List Nat :=
  ovl.filterMap fun p =>
    if (annAt l p.1).bbox = (annAt l p.2).bbox then none
    else if BBox.contains (annAt l p.1).bbox (annAt l p.2).bbox && !(ignore.contains p.1) then
      some p.2
    else if BBox.contains (annAt l p.2).bbox (annAt l p.1).bbox && !(ignore.contains p.2) then
      some p.1
    else none

/-- The `eliminated` set built by `eliminate_overlaps`:
duplicates first, then containments with the duplicates as `ignore`. -/
def eliminatedSet (l : List Anno) : List Nat :=
  let ovl := find_overlaps l
  let dups := find_duplicates l ovl
  dups ++ find_contained l ovl dups

/-- `eliminate_overlaps(page, annotations)` (the returned list; the
diagnostic printing of residual overlaps has no effect on it). -/
def eliminate_overlaps (l : List Anno) : List Anno :=
  let elim := eliminatedSet l
  ((List.range l.length).filter fun i => !(elim.contains i)).map (annAt l)

/-! ## Table-outline extension: src/annotate.py extend_table_bboxes

Layout items (pdfminer objects) are modelled by their kind and bbox;
the function first filters the non-marked items to lines and rectangles.
The while loop runs until a pass applies no extension; each pass is a
pure function of the pre-pass table bboxes because the per-table outline
queues are computed before any extension is applied.  The loop is
modelled with explicit fuel `candidates.length + 1`, which is proved
sufficient below (each extending pass strictly shrinks the candidate
list).
-/

inductive LKind where
  | chr | line | curve | rect | fig | img
deriving DecidableEq, Repr

structure LItem where
  kind : LKind
  bbox : BBox
deriving DecidableEq, Repr

/-- `BBox.from_layout_item(item)`. -/
def from_layout_item (i : LItem) : BBox := i.bbox

/-- `isinstance(i, (LTLine, LTRect))` filter on the non-marked items. -/
def outlineCandidates (nonmarked : List LItem) : List LItem :=
  nonmarked.filter fun i => i.kind = LKind.line || i.kind = LKind.rect

/-- Positional access into the table-bbox list (table object identity). -/
def bbAt (tables : List BBox) (i : Nat) : BBox := tables.getD i ⟨0, 0, 0, 0⟩

/-- `[table for table in tables if item_bbox.overlaps(table.bbox.padded(margin))]`
as the list of table indices. -/
def ovlTables (tables : List BBox) (margin : ℚ) (c : BBox) : List Nat :=
  (List.range tables.length).filter fun t =>
    BBox.overlaps c ((bbAt tables t).padded margin)

/-- `outline_items_by_table[table]`: the candidates overlapping exactly
the one table `i`. -/
def queuedTo (tables : List BBox) (margin : ℚ) (cands : List BBox) (i : Nat) :
    List BBox :=
  cands.filter fun c => ovlTables tables margin c = [i]

/-- `remaining`: the candidates overlapping no table in this pass. -/
def remainingOf (tables : List BBox) (margin : ℚ) (cands : List BBox) : List BBox :=
  cands.filter fun c => ovlTables tables margin c = []

/-- Whether the pass extends table `i`: it has queued outline items and
`bbox_with_outline.area / table.bbox.area > 1.0`. -/
def extendsAt (tables : List BBox) (margin : ℚ) (cands : List BBox) (i : Nat) : Bool :=
  match BBox.Union (queuedTo tables margin cands i) with
  | none => false
  | some ob =>
    decide (1 < (BBox.union (bbAt tables i) ob).area / (bbAt tables i).area)

/-- The bbox of table `i` after the pass. -/
def stepTable (tables : List BBox) (margin : ℚ) (cands : List BBox) (i : Nat) : BBox :=
  match BBox.Union (queuedTo tables margin cands i) with
  | none => bbAt tables i
  | some ob =>
    let u := BBox.union (bbAt tables i) ob
    if 1 < u.area / (bbAt tables i).area then u else bbAt tables i

/-- All table bboxes after one pass of the while loop. -/
def passTables (tables : List BBox) (margin : ℚ) (cands : List BBox) : List BBox :=
  (List.range tables.length).map (stepTable tables margin cands)

/-- `extended` flag of one pass. -/
def passExtended (tables : List BBox) (margin : ℚ) (cands : List BBox) : Bool :=
  (List.range tables.length).any fun i => extendsAt tables margin cands i

/-- The while loop of `extend_table_bboxes`, with fuel. -/
def extendLoopFuel : Nat → List BBox → ℚ → List BBox → List BBox
  | 0, tables, _, _ => tables
  | fuel + 1, tables, margin, cands =>
    if passExtended tables margin cands then
      extendLoopFuel fuel (passTables tables margin cands) margin
        (remainingOf tables margin cands)
    else tables

/-- The while loop of `extend_table_bboxes` (fuel `cands.length + 1` is
proved sufficient below: a pass that extends consumes at least one
candidate). -/
def extendLoop (tables : List BBox) (margin : ℚ) (cands : List BBox) : List BBox :=
  extendLoopFuel (cands.length + 1) tables margin cands

/-- Write the final table bboxes back into the annotation list (the
source mutates the `Table` annotations in place). -/
def writeBack : List Anno → List BBox → List Anno
  | [], _ => []
  | a :: rest, final =>
    if a.type = "Table" then
      { a with bbox := final.headD a.bbox } :: writeBack rest final.tail
    else
      a :: writeBack rest final

/-- `extend_table_bboxes(page, annotations, nonmarked, margin=4)`:
the returned annotation list with the extended table bboxes. -/
def extend_table_bboxes (anns : List Anno) (nonmarked : List LItem) (margin : ℚ) :
    List Anno :=
  let cands := (outlineCandidates nonmarked).map from_layout_item
  let tables := (anns.filter fun a => a.type = "Table").map Anno.bbox
  writeBack anns (extendLoop tables margin cands)

/-- Model-level notion: `a` lies inside `b` (coordinate-wise). -/
def subBB (a b : BBox) : Prop :=
  b.llx ≤ a.llx ∧ b.lly ≤ a.lly ∧ a.urx ≤ b.urx ∧ a.ury ≤ b.ury

/-- Model-level notion: a box with positive width and height. -/
def posBB (b : BBox) : Prop := 0 < b.width ∧ 0 < b.height

/-- Model-level notion: the item is accounted for by the current table
geometry — inside some table's bbox, or overlapping at least two padded
table bboxes (permanently discarded as ambiguous). -/
def AccItem (tables : List BBox) (margin : ℚ) (c : BBox) : Prop :=
  (∃ i, i < tables.length ∧ subBB c (bbAt tables i)) ∨
    2 ≤ (ovlTables tables margin c).length

/-- Model-level notion: the item can no longer cause an extension —
it overlaps no padded table bbox, or it is accounted for. -/
def settledItem (tables : List BBox) (margin : ℚ) (c : BBox) : Prop :=
  ovlTables tables margin c = [] ∨ AccItem tables margin c

/-! ## Column splitting: src/taggedpdf/layout.py

`group_into_lines` folds over the characters keeping the current line
and its running vertical span; `split_into_columns` groups the lines
into columns by horizontal span with the same 0.5 threshold, and falls
back to a single column holding the original item list when fewer than
two columns result.  The `assert length > 0` in `relative_overlaps` is
modelled by positivity hypotheses in the theorems; the division itself
is exact rational arithmetic.
-/

def defaultLItem : LItem := ⟨LKind.chr, ⟨0, 0, 0, 0⟩⟩

/-- `relative_overlaps(span1, span2)`. -/
def relative_overlaps (span1 span2 : ℚ × ℚ) : ℚ × ℚ :=
  let length1 := span1.2 - span1.1
  let length2 := span2.2 - span2.1
  let ovl := min span1.2 span2.2 - max span1.1 span2.1
  if ovl < 0 then (0, 0) else (ovl / length1, ovl / length2)

/-- `max(relative_overlaps(s1, s2)) >= 0.5`, the `same_line` /
`same_column` lambda. -/
def sameSpanGroup (s1 s2 : ℚ × ℚ) : Bool :=
  decide ((1 : ℚ) / 2 ≤ max (relative_overlaps s1 s2).1 (relative_overlaps s1 s2).2)

/-- Fold state: completed groups in order, current group, running span. -/
structure GroupAcc (α : Type) where
  done : List (List α)
  cur : List α
  span : ℚ × ℚ

/-- One step of the grouping fold shared by `group_into_lines` (vertical
spans) and the column grouping (horizontal spans): continue the current
group when the span test passes, else start a new group. -/
def groupStep {α : Type} (spanOf : α → ℚ × ℚ) (acc : Option (GroupAcc α)) (x : α) :
    Option (GroupAcc α) :=
  match acc with
  | none => some ⟨[], [x], spanOf x⟩
  | some ⟨done, cur, sp⟩ =>
    let xs := spanOf x
    if sameSpanGroup sp xs then
      some ⟨done, cur ++ [x], (min sp.1 xs.1, max sp.2 xs.2)⟩
    else
      some ⟨done ++ [cur], [x], xs⟩

/-- Run the grouping fold and flush the current group. -/
def groupBySpan {α : Type} (spanOf : α → ℚ × ℚ) (xs : List α) : List (List α) :=
  match xs.foldl (groupStep spanOf) none with
  | none => []
  | some acc => acc.done ++ [acc.cur]

/-- The vertical span `(char.bbox[1], char.bbox[3])` of a character. -/
def charVspan (c : LItem) : ℚ × ℚ := (c.bbox.lly, c.bbox.ury)

/-- `group_into_lines(chars)`. -/
def group_into_lines (chars : List LItem) : List (List LItem) :=
  groupBySpan charVspan chars

/-- `(textline[0].bbox[0], textline[-1].bbox[2])`: the horizontal span
of a line, from its first and last characters. -/
def lineHspan (line : List LItem) : ℚ × ℚ :=
  ((line.headD defaultLItem).bbox.llx, (line.getLastD defaultLItem).bbox.urx)

/-- The column grouping of `split_into_columns` over the built lines. -/
def columnsOfLines (lines : List (List LItem)) : List (List (List LItem)) :=
  groupBySpan lineHspan lines

/-- `split_into_columns(layout_items, bbox)`.  The `bbox` parameter is
unused in the source body and omitted here.  In the multi-column branch
`_hierarchy_subset` flattens each column back to its characters and
keeps those present in the original item set (membership is modelled by
list membership; lists and sub-lists themselves are unhashable in the
source and are skipped by its `try`/`except`, leaving the characters). -/
def split_into_columns (layout_items : List LItem) : List (List LItem) :=
  let chars := layout_items.filter fun i => i.kind = LKind.chr
  let columns := columnsOfLines (group_into_lines chars)
  if columns.length < 2 then [layout_items]
  else columns.map fun col => col.flatten.filter fun c => layout_items.contains c

/-! ## Bounding-box cache: src/taggedpdf/structtree.py StructElemBase

`_update_bbox_cache` fills a per-page dictionary for the pages in
`self._pages`; `get_bbox` reads it with `.get(page, None)`.  The per-page
value computed for one node is modelled by `update_bbox_cache` below as
a function of the node's page set, direct content, descendant bboxes and
attribute bboxes (a stored `None` value and an absent key are
indistinguishable through `get_bbox` and are both modelled as `none`).

The validity state of the caches across the tree, and its interaction
with `_invalidate_caches` / `add_content_item` / `get_bbox`, is modelled
separately as a state machine over the node indices: nodes are numbered
so that every node's parent has a smaller index (parents are constructed
before their children), a cache is either valid (`true`) or invalid
(`false`), and the state also records whether a node's `_pages` set is
non-empty.  A `get_bbox` miss recomputes: the node's cache is set, and
the recompute loops over `sorted(self._pages)` — only when that page
set is non-empty does it call `get_bbox` on every node of
`subtree_nodes(include_self=False)`, validating the whole subtree; a
node with no recorded pages is validated alone (its cache becomes the
empty dictionary) and its descendants stay uncached.
`add_content_item` first records the page on the node and (through
`_add_page`) on every ancestor, then `_invalidate_caches` walks up the
parent chain clearing caches until it reaches an already-invalid node.
-/

structure ContentItem where
  bbox : BBox
  isSpaceText : Bool
deriving DecidableEq, Repr

/-- The per-page bbox visible through `get_bbox` after
`_update_bbox_cache`: for each page of `_pages`, the union of
non-whitespace content bboxes, non-`None` descendant bboxes, and the
attribute bboxes — the latter zeroed out when the node's pages are not
exactly one (with a logged error in the source). -/
def update_bbox_cache (pages : List Nat) (content : Nat → List ContentItem)
    (subtree : Nat → List (Option BBox)) (attr_bboxes : List BBox) :
    Nat → Option BBox :=
  let attrs := if attr_bboxes ≠ [] ∧ pages.length ≠ 1 then [] else attr_bboxes
  fun page =>
    if page ∈ pages then
      BBox.Union ((((content page).filter fun i => !i.isSpaceText).map ContentItem.bbox)
        ++ (subtree page).filterMap id ++ attrs)
    else none

/-- The ancestor chain of node `i` (including `i`), read through the
parent back-references; the fuel `i + 1` is sufficient whenever parents
have smaller indices. -/
def ancestorsFrom (parent : Nat → Option Nat) : Nat → Nat → List Nat
  | 0, _ => []
  | fuel + 1, i =>
    i :: (match parent i with
          | none => []
          | some p => ancestorsFrom parent fuel p)

def ancestorsOf (parent : Nat → Option Nat) (i : Nat) : List Nat :=
  ancestorsFrom parent (i + 1) i

/-- `_invalidate_caches`: if this node has cached data, clear it and
propagate to the parent; an already-invalid node stops the walk. -/
def invalidateFuel (parent : Nat → Option Nat) :
    Nat → (Nat → Bool) → Nat → (Nat → Bool)
  | 0, cache, _ => cache
  | fuel + 1, cache, i =>
    if cache i then
      let cache' := fun j => if j = i then false else cache j
      match parent i with
      | none => cache'
      | some p => invalidateFuel parent fuel cache' p
    else cache

/-- `_invalidate_caches` on node `i` (this is the cache effect of
`add_content_item`, which calls it before attaching the content). -/
def invalidate_caches (parent : Nat → Option Nat) (cache : Nat → Bool) (i : Nat) :
    Nat → Bool :=
  invalidateFuel parent (i + 1) cache i

/-- `j` lies in the subtree of `i` (`i` is an ancestor of `j` or `j`
itself). -/
def inSubtree (parent : Nat → Option Nat) (i j : Nat) : Bool :=
  (ancestorsOf parent j).contains i

/-- The cache-and-pages state of the whole tree: per node, whether its
`_bbox_cache` holds data (`true`) or is `None` (`false`), and whether
its `_pages` set is non-empty. -/
structure CacheSt where
  cache : Nat → Bool
  hasPages : Nat → Bool

/-- The cache effect of `get_bbox` on node `i`: `_update_bbox_cache`
returns immediately when the cache is valid; on a miss it sets this
node's cache and loops over `sorted(self._pages)` — when that page set
is non-empty the recompute calls `get_bbox` on every node of
`subtree_nodes(include_self=False)`, validating the whole subtree, but
a node with no recorded pages is validated alone and its descendants
stay uncached. -/
def get_bbox_fill (parent : Nat → Option Nat) (st : CacheSt) (i : Nat) : CacheSt :=
  if st.cache i then st
  else
    { st with cache := fun j =>
        if j = i then true
        else if st.hasPages i && inSubtree parent i j then true
        else st.cache j }

/-- The state effect of `add_content_item` on node `i`: `_add_page`
records the page on `i` and (propagating through the parent
back-references) on every ancestor of `i`, then `_invalidate_caches`
clears the caches up the parent chain, stopping at the first
already-invalid node. -/
def add_content (parent : Nat → Option Nat) (st : CacheSt) (i : Nat) : CacheSt :=
  { cache := invalidate_caches parent st.cache i,
    hasPages := fun j =>
      if (ancestorsOf parent i).contains j then true else st.hasPages j }

/-- The cache-affecting operations on the tree. -/
inductive CacheOp where
  | getBbox (i : Nat)
  | addContent (i : Nat)
deriving DecidableEq, Repr

def cacheStep (parent : Nat → Option Nat) (st : CacheSt) : CacheOp → CacheSt
  | CacheOp.getBbox i => get_bbox_fill parent st i
  | CacheOp.addContent i => add_content parent st i

/-- All caches start out invalid (`self._bbox_cache = None` in
`__init__`) and all page sets empty; `runOps` folds a sequence of
operations over that state. -/
def runOps (parent : Nat → Option Nat) (ops : List CacheOp) : CacheSt :=
  ops.foldl (cacheStep parent) ⟨fun _ => false, fun _ => false⟩

/-- The segment of the ancestor chain of `i` running from `i` up to and
including `a` (meaningful when `a` is an ancestor of `i`): the nodes
whose caches `_invalidate_caches` starting at `i` must traverse to
reach `a`. -/
def chainTo (parent : Nat → Option Nat) (i a : Nat) : List Nat :=
  ((ancestorsOf parent i).takeWhile fun b => b ≠ a) ++ [a]

/-- A concrete three-node parent chain (the parent of node `n + 1` is
node `n`), used to exercise the cache state machine. -/
def chainParent : Nat → Option Nat
  | 0 => none
  | n + 1 => some n

/-! ## Structure-tree building: src/taggedpdf/structtree.py + parsing.py

PDF objects are modelled by the inductive `PObj`; dictionaries carry
their object-generation identity and indirectness flag.  Exceptions are
modelled by `Except PErr`, where `PErr.valueErr` stands for Python
`ValueError` (the only class caught by `add_child`) and `PErr.otherErr`
for every other class (`NotImplementedError`, `AttributeError`,
`AssertionError`, `RecursionError`), which `add_child` does not catch.

`root.add_element` registers the element's objgen in the element map
before anything else and asserts it is not already present; the set of
registered objgens is threaded through as `acc`, and — as in the source,
where the map is root state — registrations performed before a failure
are kept.  Recursion depth is bounded by a fuel parameter decremented on
every `parse_child` entry; exhaustion models Python's `RecursionError`
(an uncaught non-`ValueError`).
-/

inductive PObj where
  | dict (og : Nat) (indirect : Bool) (entries : List (String × PObj))
  | arr (items : List PObj)
  | name (s : String)
  | int (n : Int)
  | str (s : String)
  | boolean (b : Bool)
  | null

inductive PErr where
  | valueErr (msg : String)
  | otherErr (msg : String)
deriving DecidableEq, Repr

/-- `dictionary.get(key)` (pikepdf `Dictionary.get`). -/
def dictGet (entries : List (String × PObj)) (key : String) : Option PObj :=
  (entries.find? fun e => e.1 = key).map Prod.snd

/-- `parsing.get_value` specialised to names (`parsing.get_name`). -/
def get_name (entries : List (String × PObj)) (key : String) (required : Bool) :
    Except PErr (Option String) :=
  match dictGet entries key with
  | none =>
    if required then Except.error (PErr.valueErr "missing key") else Except.ok none
  | some (PObj.name s) => Except.ok (some s)
  | some _ => Except.error (PErr.valueErr "wrong type")

/-- `parsing.get_integer`. -/
def get_integer (entries : List (String × PObj)) (key : String) (required : Bool) :
    Except PErr (Option Int) :=
  match dictGet entries key with
  | none =>
    if required then Except.error (PErr.valueErr "missing key") else Except.ok none
  | some (PObj.int n) => Except.ok (some n)
  | some _ => Except.error (PErr.valueErr "wrong type")

/-- `parsing.get_string` (pikepdf `String` values). -/
def get_string (entries : List (String × PObj)) (key : String) (required : Bool) :
    Except PErr (Option String) :=
  match dictGet entries key with
  | none =>
    if required then Except.error (PErr.valueErr "missing key") else Except.ok none
  | some (PObj.str s) => Except.ok (some s)
  | some _ => Except.error (PErr.valueErr "wrong type")

/-- `parsing.get_array`. -/
def get_array (entries : List (String × PObj)) (key : String) (required : Bool) :
    Except PErr (Option (List PObj)) :=
  match dictGet entries key with
  | none =>
    if required then Except.error (PErr.valueErr "missing key") else Except.ok none
  | some (PObj.arr items) => Except.ok (some items)
  | some _ => Except.error (PErr.valueErr "wrong type")

/-- `parsing.get_dictionary`. -/
def get_dictionary (entries : List (String × PObj)) (key : String) (required : Bool) :
    Except PErr (Option (List (String × PObj))) :=
  match dictGet entries key with
  | none =>
    if required then Except.error (PErr.valueErr "missing key") else Except.ok none
  | some (PObj.dict _ _ d) => Except.ok (some d)
  | some _ => Except.error (PErr.valueErr "wrong type")

structure PAttr where
  name : String
  value : PObj
  owner : String

/-- `parsing.parse_attributes_from_dict` (with
`parse_user_properties`, which is accepted, logged as unimplemented and
yields no attributes). -/
def parse_attributes_from_dict (d : List (String × PObj)) :
    Except PErr (List PAttr) :=
  match get_name d "O" true with
  | Except.error e => Except.error e
  | Except.ok owner =>
    let ownerName := owner.getD ""
    if ownerName = "UserProperties" then
      match get_array d "P" true with
      | Except.error e => Except.error e
      | Except.ok _ => Except.ok []
    else
      Except.ok ((d.filter fun e => e.1 ≠ "O").map fun e => ⟨e.1, e.2, ownerName⟩)

/-- `parsing.parse_attributes_from_array`. -/
def parse_attributes_from_array (items : List PObj) : Except PErr (List PAttr) :=
  items.foldl
    (fun st item =>
      match st with
      | Except.error e => Except.error e
      | Except.ok attrs =>
        match item with
        | PObj.dict _ _ d =>
          match parse_attributes_from_dict d with
          | Except.error e => Except.error e
          | Except.ok more => Except.ok (attrs ++ more)
        | PObj.int _ => Except.ok attrs
        | PObj.null => Except.error (PErr.valueErr "None value in attributes")
        | _ => Except.error (PErr.valueErr "wrong type in attributes"))
    (Except.ok [])

/-- `parsing.parse_attributes`: an unexpected element type (neither
dictionary nor array) raises `NotImplementedError`, which is not a
`ValueError`. -/
def parse_attributes (element : Option PObj) : Except PErr (List PAttr) :=
  match element with
  | none => Except.ok []
  | some (PObj.dict _ _ d) => parse_attributes_from_dict d
  | some (PObj.arr items) => parse_attributes_from_array items
  | some _ => Except.error (PErr.otherErr "attributes from unexpected type")

/-- `parsing.parse_attrib_class`. -/
def parse_attrib_cls (element : Option PObj) : Except PErr (List String) :=
  match element with
  | none => Except.ok []
  | some (PObj.name n) => Except.ok [n]
  | some (PObj.arr items) =>
    items.foldl
      (fun st item =>
        match st with
        | Except.error e => Except.error e
        | Except.ok cs =>
          match item with
          | PObj.name n => Except.ok (cs ++ [n])
          | _ => Except.error (PErr.valueErr "wrong type in attr class"))
      (Except.ok [])
  | some _ => Except.error (PErr.valueErr "wrong type for attr class")

/-- `ClassMap.apply_mapping`: injects class attributes whose names are
not already present; a missing class name raises `ValueError`; when the
root has no class map at all, `self.root.class_map` is `None` and the
attribute access raises `AttributeError` (not a `ValueError`). -/
def apply_mapping (classMap : Option (List (String × List PAttr)))
    (attrs : List PAttr) (cls : String) : Except PErr (List PAttr) :=
  match classMap with
  | none => Except.error (PErr.otherErr "class_map is None")
  | some m =>
    match m.find? (fun e => e.1 = cls) with
    | none => Except.error (PErr.valueErr "missing attribute class")
    | some e =>
      Except.ok
        (e.2.foldl
          (fun acc a => if acc.any fun b => b.name = a.name then acc else acc ++ [a])
          attrs)

/-- `STANDARD_STRUCTURE_TYPES` from src/taggedpdf/structtype.py. -/
def STANDARD_STRUCTURE_TYPES : List String :=
  ["Document", "Part", "Art", "Sect", "Div", "BlockQuote", "Caption", "TOC",
   "TOCI", "Index", "NonStruct", "Private",
   "P", "H", "H1", "H2", "H3", "H4", "H5", "H6", "L", "LI", "Lbl", "LBody",
   "Table",
   "TR", "TH", "TD", "THead", "TBody", "TFoot",
   "Span", "Quote", "Note", "Reference", "BibEntry", "Code", "Link", "Annot",
   "Ruby", "Warichu",
   "RB", "RT", "RP", "WT", "WP",
   "Figure", "Formula", "Form"]

def is_standard_type (t : String) : Bool := STANDARD_STRUCTURE_TYPES.contains t

/-- Structure-tree nodes (`StructElem`, `MCIDStructElem`,
`ObjRefStructElem`), reduced to the fields the claims read. -/
inductive SNode where
  | elem (struct_type : String) (original_type : String) (children : List SNode)
  | mcidLeaf (m : Int)
  | objref (objOg : Nat)

/-- Role map and class map of the structure-tree root (already parsed;
`None` when the root has no such entry). -/
structure BuildCtx where
  roleMap : Option (List (String × String))
  classMap : Option (List (String × List PAttr))

/-- `StructElem.__init__` checking of the parent entry `P`: missing is a
`ValueError`; pikepdf-typed direct values have `is_indirect == False`
(`ValueError`); plain Python values (`int`, `bool`, `None`) have no
`is_indirect` attribute at all (`AttributeError`). -/
def check_parent_ref (v : Option PObj) : Except PErr Unit :=
  match v with
  | none => Except.error (PErr.valueErr "missing P for StructElem")
  | some (PObj.dict _ indirect _) =>
    if indirect then Except.ok () else Except.error (PErr.valueErr "P is not indirect")
  | some (PObj.int _) => Except.error (PErr.otherErr "int has no is_indirect")
  | some (PObj.boolean _) => Except.error (PErr.otherErr "bool has no is_indirect")
  | some PObj.null => Except.error (PErr.otherErr "None has no is_indirect")
  | some _ => Except.error (PErr.valueErr "P is not indirect")

/-- `add_child` fold step: `parse_child` guarded by
`except ValueError`, which logs and drops the child; any other exception
propagates, aborting the enclosing construction. -/
def addChildStep (parse : PObj → List Nat → List Nat × Except PErr SNode)
    (st : List Nat × Except PErr (List SNode)) (k : PObj) :
    List Nat × Except PErr (List SNode) :=
  match st with
  | (acc, Except.error e) => (acc, Except.error e)
  | (acc, Except.ok ns) =>
    match parse k acc with
    | (acc', Except.ok n) => (acc', Except.ok (ns ++ [n]))
    | (acc', Except.error (PErr.valueErr _)) => (acc', Except.ok ns)
    | (acc', Except.error e) => (acc', Except.error e)

/-- `MCIDStructElem.from_dictionary`. -/
def build_mcrF : List (String × PObj) → List Nat → List Nat × Except PErr SNode
  | entries, acc =>
    match get_integer entries "MCID" true with
    | Except.error e => (acc, Except.error e)
    | Except.ok mOpt =>
      match get_dictionary entries "Pg" false with
      | Except.error e => (acc, Except.error e)
      | Except.ok _ => (acc, Except.ok (SNode.mcidLeaf (mOpt.getD 0)))

/-- `ObjRefStructElem.__init__`. -/
def build_objrefF : Nat → List (String × PObj) → List Nat →
    List Nat × Except PErr SNode
  | og, entries, acc =>
    match get_dictionary entries "Obj" true with
    | Except.error e => (acc, Except.error e)
    | Except.ok _ => (acc, Except.ok (SNode.objref og))

/-- `StructElem.__init__` after the `Type` check, parameterised over the
recursive `parse_child` (supplied with one unit of fuel less by
`parse_childF` below): read the required structure type `S`, resolve it
through the role map and the standard-type set, check `P`, build the
kids, parse attributes and attribute classes, apply the class map, and
read the optional scalar entries — in the source order. -/
def build_elem_restF (parse : PObj → List Nat → List Nat × Except PErr SNode)
    (ctx : BuildCtx) (entries : List (String × PObj)) (acc : List Nat) :
    List Nat × Except PErr SNode :=
  match get_name entries "S" true with
  | Except.error e => (acc, Except.error e)
  | Except.ok stOpt =>
    let original := stOpt.getD ""
    let resolved :=
      match ctx.roleMap with
      | none => original
      | some rm =>
        match rm.find? (fun e => e.1 = original) with
        | some e => e.2
        | none => original
    let struct_type := if is_standard_type resolved then resolved else "Unknown"
    match check_parent_ref (dictGet entries "P") with
    | Except.error e => (acc, Except.error e)
    | Except.ok _ =>
      let kidsResult :=
        match dictGet entries "K" with
        | some (PObj.arr items) =>
          items.foldl (addChildStep parse) (acc, Except.ok [])
        | some PObj.null => (acc, Except.ok [])
        | some v => addChildStep parse (acc, Except.ok []) v
        | none => (acc, Except.ok [])
      match kidsResult with
      | (acc, Except.error e) => (acc, Except.error e)
      | (acc, Except.ok children) =>
        match parse_attributes (dictGet entries "A") with
        | Except.error e => (acc, Except.error e)
        | Except.ok attrs =>
          match parse_attrib_cls (dictGet entries "C") with
          | Except.error e => (acc, Except.error e)
          | Except.ok classes =>
            let attrsResult :=
              classes.foldl
                (fun st cls =>
                  match st with
                  | Except.error e => Except.error e
                  | Except.ok as_ => apply_mapping ctx.classMap as_ cls)
                (Except.ok attrs)
            match attrsResult with
            | Except.error e => (acc, Except.error e)
            | Except.ok _ =>
              let opt : Except PErr Unit :=
                match get_string entries "ID" false with
                | Except.error e => Except.error e
                | Except.ok _ =>
                  match get_integer entries "R" false with
                  | Except.error e => Except.error e
                  | Except.ok _ =>
                    match get_string entries "T" false with
                    | Except.error e => Except.error e
                    | Except.ok _ =>
                      match get_string entries "Lang" false with
                      | Except.error e => Except.error e
                      | Except.ok _ =>
                        match get_string entries "Alt" false with
                        | Except.error e => Except.error e
                        | Except.ok _ =>
                          match get_string entries "E" false with
                          | Except.error e => Except.error e
                          | Except.ok _ =>
                            match get_string entries "ActualText" false with
                            | Except.error e => Except.error e
                            | Except.ok _ => Except.ok ()
              match opt with
              | Except.error e => (acc, Except.error e)
              | Except.ok _ =>
                (acc, Except.ok (SNode.elem struct_type original children))

/-- `StructElem.__init__`: register the objgen (asserting it fresh),
check `Type`, then the rest. -/
def build_elemF (parse : PObj → List Nat → List Nat × Except PErr SNode)
    (ctx : BuildCtx) (og : Nat) (_indirect : Bool)
    (entries : List (String × PObj)) (acc : List Nat) :
    List Nat × Except PErr SNode :=
  if og ∈ acc then
    (acc, Except.error (PErr.otherErr "assert objgen not in element_map"))
  else
    let acc := og :: acc
    match dictGet entries "Type" with
    | some (PObj.name "StructElem") => build_elem_restF parse ctx entries acc
    | some _ => (acc, Except.error (PErr.valueErr "Type has wrong value"))
    | none => build_elem_restF parse ctx entries acc

/-- `parse_child`: dictionaries are dispatched on their `Type` entry
(absent or `StructElem` → element; `MCR` / `OBJR` → leaves; anything
else → `ValueError`); bare integers are MCID leaves; every other kind
raises `NotImplementedError`.  The fuel decrement models Python's
recursion limit (`RecursionError` is not a `ValueError` either). -/
def parse_childF : Nat → BuildCtx → PObj → List Nat → List Nat × Except PErr SNode
  | 0, _, _, acc => (acc, Except.error (PErr.otherErr "recursion limit"))
  | fuel + 1, ctx, element, acc =>
    match element with
    | PObj.dict og indirect entries =>
      match dictGet entries "Type" with
      | none => build_elemF (parse_childF fuel ctx) ctx og indirect entries acc
      | some (PObj.name "StructElem") =>
        build_elemF (parse_childF fuel ctx) ctx og indirect entries acc
      | some (PObj.name "MCR") => build_mcrF entries acc
      | some (PObj.name "OBJR") => build_objrefF og entries acc
      | some _ => (acc, Except.error (PErr.valueErr "child has wrong type"))
    | PObj.int n => (acc, Except.ok (SNode.mcidLeaf n))
    | _ => (acc, Except.error (PErr.otherErr "NotImplementedError"))

/-- The kid loop of `StructElem.__init__` over an explicit child list,
i.e. repeated `add_child` (the building block of the claims about
sibling resilience). -/
def build_kidsF (fuel : Nat) (ctx : BuildCtx) (ks : List PObj) (acc : List Nat) :
    List Nat × Except PErr (List SNode) :=
  ks.foldl (addChildStep (parse_childF fuel ctx)) (acc, Except.ok [])

/-- `StructTreeRoot.__init__` handling of its `K` entry: a single
dictionary or an array of dictionaries, constructed directly — without
`add_child`, so nothing is caught and any failure is fatal; a non-dictionary
array member raises `ValueError` directly. -/
def build_root_kidsF (fuel : Nat) (ctx : BuildCtx) (kids : Option PObj)
    (acc : List Nat) : List Nat × Except PErr (List SNode) :=
  match kids with
  | none => (acc, Except.ok [])
  | some (PObj.dict og indirect entries) =>
    match build_elemF (parse_childF fuel ctx) ctx og indirect entries acc with
    | (acc', Except.ok n) => (acc', Except.ok [n])
    | (acc', Except.error e) => (acc', Except.error e)
  | some (PObj.arr items) =>
    items.foldl
      (fun st k =>
        match st with
        | (acc', Except.error e) => (acc', Except.error e)
        | (acc', Except.ok ns) =>
          match k with
          | PObj.dict og indirect entries =>
            match build_elemF (parse_childF fuel ctx) ctx og indirect entries acc' with
            | (acc'', Except.ok n) => (acc'', Except.ok (ns ++ [n]))
            | (acc'', Except.error e) => (acc'', Except.error e)
          | _ => (acc', Except.error (PErr.valueErr "root kid has wrong type")))
      (acc, Except.ok [])
  | some _ => (acc, Except.error (PErr.valueErr "StructTreeRoot K has wrong type"))

/-! ## Content association: src/taggedpdf/taggedpdf.py

`TaggedPdf.__init__` walks the extracted content and attaches each
fragment carrying a marked-content id through `get_struct_elem`.  The
association state is modelled by `AssocCfg`: the per-page
`/StructParents` values, the parent number tree (key → array of
null-or-objgen entries) and the element map (objgen → the element's
direct children).  `AErr` enumerates the exceptions that can escape the
association loop.

The extractor's split of fragments is modelled from the spec (the
`nonmarked_items_by_page` attribute referenced by `taggedpdf.py` line 80
has no definition under src/): see `nonmarked_items`.
-/

inductive AErr where
  | indexErr
  | keyErr
  | attachErr
deriving DecidableEq, Repr

structure AssocCfg where
  pageStructParents : List (Option Nat)
  parentTree : List (Nat × List (Option Nat))
  elementMap : List (Nat × List SNode)

/-- The `mcid` of a direct child, `None` for non-leaf children
(`StructElemBase.__init__` sets `self.mcid = None`; `MCIDStructElem`
overrides it). -/
def childMcid : SNode → Option Int
  | SNode.mcidLeaf m => some m
  | _ => none

/-- `TaggedPdf.get_struct_elem(page, mcid)`: the page's parent-index
slot, the parent tree, the per-sequence array, and the element map, with
the source's exception handling: an out-of-range page is logged and
re-raised (`indexErr`); a missing parent-tree key raises `KeyError`
outside any handler (`keyErr`); a `None` slot, an out-of-range sequence
id, a `None` array entry, and an unregistered element all yield `None`. -/
def get_struct_elem (cfg : AssocCfg) (page : Nat) (mcid : Nat) :
    Except AErr (Option (List SNode)) :=
  match cfg.pageStructParents.get? page with
  | none => Except.error AErr.indexErr
  | some none => Except.ok none
  | some (some idx) =>
    match (cfg.parentTree.find? fun e => e.1 = idx).map Prod.snd with
    | none => Except.error AErr.keyErr
    | some parentArray =>
      match parentArray.get? mcid with
      | none => Except.ok none
      | some none => Except.ok none
      | some (some og) =>
        Except.ok ((cfg.elementMap.find? fun e => e.1 = og).map Prod.snd)

/-- `StructElem._add_content_item`: attach to the direct child whose
`mcid` matches, else raise `ValueError` (uncaught in the caller). -/
def add_content_elem (children : List SNode) (mcid : Nat) : Except AErr Unit :=
  if children.any fun c => childMcid c = some (mcid : Int) then Except.ok ()
  else Except.error AErr.attachErr

/-- An extracted content fragment: its sequence id (if its tag stack
carries one) and an identity. -/
structure Frag where
  mcid : Option Nat
  fragId : Nat
deriving DecidableEq, Repr

/-- Modelled from the spec: the extractor's non-marked record
(`TaggedContent.nonmarked_items_by_page`, referenced from
`taggedpdf.py` but absent from src/taggedpdf/content.py) — "rendered
fragments not attached to any structure node": the fragments produced
without a live sequence id in their tag stack. -/
def nonmarked_items (frags : List Frag) : List Frag :=
  frags.filter fun f => f.mcid.isNone

/-- The attachment loop of `TaggedPdf.__init__`: fragments whose
resolution yields `None` are skipped (`continue`), successful
resolutions attach (returning the fragment ids attached), and a
resolution or attachment exception aborts the loop. -/
def associate (cfg : AssocCfg) (page : Nat) : List Frag → Except AErr (List Nat)
  | [] => Except.ok []
  | f :: fs =>
    match f.mcid with
    | none => associate cfg page fs
    | some m =>
      match get_struct_elem cfg page m with
      | Except.error e => Except.error e
      | Except.ok none => associate cfg page fs
      | Except.ok (some children) =>
        match add_content_elem children m with
        | Except.error e => Except.error e
        | Except.ok _ =>
          match associate cfg page fs with
          | Except.error e => Except.error e
          | Except.ok rest => Except.ok (f.fragId :: rest)

/-! ## Caption assignment (modelled from the spec)

Modelled from the spec: the caption assigner of §4.6 has no
implementation under src/ (only the `Caption` label appears in the label
tables of src/annotate.py and src/taggedpdf/config.py).  Candidates that
horizontally overlap the table/figure are split into those strictly
above and strictly below; each side is ordered by vertical distance
ascending, the nearest above candidate is tested against the
caption-keyword pattern (keyword, whitespace, numeral, anchored at the
start after leading whitespace, case-insensitive), and the nearest below
candidate is tested only when the above test does not relabel. -/

structure CAnn where
  type : String
  bbox : BBox
  text : String
deriving DecidableEq, Repr

def cannAt (l : List CAnn) (i : Nat) : CAnn := l.getD i ⟨"", ⟨0, 0, 0, 0⟩, ""⟩

/-- Modelled from the spec: the caption keyword lexicon
("Figure/Fig./Table/Kuva/Taulukko/Bild/Figur/Tabell etc.",
case-insensitivity handled by lower-casing the text). -/
def captionKeywords : List String :=
  ["figure", "fig.", "table", "kuva", "taulukko", "bild", "figur", "tabell"]

/-- Modelled from the spec: the caption-keyword pattern — leading
whitespace ignored, then a keyword, whitespace, and a numeral, anchored
at the start of the text. -/
def matchesCaption (s : String) : Bool :=
  let cs := (s.toList.map Char.toLower).dropWhile Char.isWhitespace
  captionKeywords.any fun kw =>
    kw.toList.isPrefixOf cs &&
      (match cs.drop kw.toList.length with
       | c :: d :: _ => c.isWhitespace && d.isDigit
       | _ => false)

/-- Indices of candidates that horizontally overlap the target and lie
strictly above it. -/
def aboveCandidates (t : CAnn) (anns : List CAnn) : List Nat :=
  (List.range anns.length).filter fun i =>
    BBox.horizontally_overlaps (cannAt anns i).bbox t.bbox &&
      BBox.is_above (cannAt anns i).bbox t.bbox

/-- Indices of candidates that horizontally overlap the target and lie
strictly below it. -/
def belowCandidates (t : CAnn) (anns : List CAnn) : List Nat :=
  (List.range anns.length).filter fun i =>
    BBox.horizontally_overlaps (cannAt anns i).bbox t.bbox &&
      BBox.is_below (cannAt anns i).bbox t.bbox

/-- The candidate's vertical distance from the target. -/
def vdistTo (t : CAnn) (anns : List CAnn) (i : Nat) : ℚ :=
  (BBox.vertical_distance (cannAt anns i).bbox t.bbox).getD 0

/-- First index attaining the minimum of `f` (stable sort by `f`
followed by taking the head). -/
def argminBy (f : Nat → ℚ) : List Nat → Option Nat
  | [] => none
  | i :: is =>
    match argminBy f is with
    | none => some i
    | some j => if f j < f i then some j else some i

/-- The nearest candidate strictly above the target. -/
def nearestAbove (t : CAnn) (anns : List CAnn) : Option Nat :=
  argminBy (vdistTo t anns) (aboveCandidates t anns)

/-- The nearest candidate strictly below the target. -/
def nearestBelow (t : CAnn) (anns : List CAnn) : Option Nat :=
  argminBy (vdistTo t anns) (belowCandidates t anns)

/-- Relabel the candidate at index `i` to `Caption`. -/
def relabelAt (anns : List CAnn) (i : Nat) : List CAnn :=
  anns.mapIdx fun j a => if j = i then { a with type := "Caption" } else a

/-- Modelled from the spec: the below-side test. -/
def captionBelowPass (t : CAnn) (anns : List CAnn) : List CAnn :=
  match nearestBelow t anns with
  | some j => if matchesCaption (cannAt anns j).text then relabelAt anns j else anns
  | none => anns

/-- Modelled from the spec: caption assignment for one table/figure. -/
def assign_caption (t : CAnn) (anns : List CAnn) : List CAnn :=
  match nearestAbove t anns with
  | some i =>
    if matchesCaption (cannAt anns i).text then relabelAt anns i
    else captionBelowPass t anns
  | none => captionBelowPass t anns

/-! ## Theorems

General helper lemmas first, then one theorem per claim (with its
witness or counterexample where required).
-/

theorem meetBB_comm (a b : BBox) : BBox.meetBB a b = BBox.meetBB b a := by
  simp [BBox.meetBB, max_comm, min_comm]

theorem intersection_comm (a b : BBox) :
    BBox.intersection a b = BBox.intersection b a := by
  simp [BBox.intersection, meetBB_comm]

theorem contains_eq (a b : BBox) :
    BBox.contains a b = true ↔ BBox.intersection a b = some b := by
  simp [BBox.contains]

theorem overlaps_eq (a b : BBox) :
    BBox.overlaps a b = (BBox.intersection a b).isSome := rfl

/-- C8 (corrected): for an empty box `E`, `E.contains(E)` is `false`
(the self-intersection is empty, so `intersection` returns `None` and
`None == E` is `False`), yet `E == E`; so mutual containment is not
equivalent to equality at `E = BBox(0, 0, 0, 0)`. -/
theorem C8_counterexample :
    ¬ ((BBox.contains ⟨0, 0, 0, 0⟩ ⟨0, 0, 0, 0⟩ = true ∧
        BBox.contains ⟨0, 0, 0, 0⟩ ⟨0, 0, 0, 0⟩ = true) ↔
      (⟨0, 0, 0, 0⟩ : BBox) = ⟨0, 0, 0, 0⟩) := by
  decide

/-- C8 (amended): for non-empty boxes, `A.contains(B) ∧ B.contains(A)`
holds iff `A == B` (the forward direction holds unconditionally, by
symmetry of the pairwise intersection). -/
theorem C8_contains_antisymm (a b : BBox) (ha : a.is_empty = false) :
    (BBox.contains a b = true ∧ BBox.contains b a = true) ↔ a = b := by
  constructor
  · rintro ⟨h1, h2⟩
    rw [contains_eq] at h1 h2
    rw [intersection_comm] at h2
    rw [h1] at h2
    exact (Option.some_injective _ h2).symm
  · rintro rfl
    have hmeet : BBox.meetBB a a = a := by
      simp [BBox.meetBB]
    constructor <;>
      · rw [contains_eq]
        simp only [BBox.intersection, hmeet, ha]
        rw [if_neg]
        simp [ha]

/-- Witness for C8 at the non-empty box `(0, 0, 1, 1)`. -/
theorem C8_contains_antisymm_witness :
    (BBox.is_empty ⟨0, 0, 1, 1⟩ = false) ∧
      ((BBox.contains ⟨0, 0, 1, 1⟩ ⟨0, 0, 1, 1⟩ = true ∧
        BBox.contains ⟨0, 0, 1, 1⟩ ⟨0, 0, 1, 1⟩ = true) ↔
        (⟨0, 0, 1, 1⟩ : BBox) = ⟨0, 0, 1, 1⟩) :=
  ⟨by decide, C8_contains_antisymm ⟨0, 0, 1, 1⟩ ⟨0, 0, 1, 1⟩ (by decide)⟩

/-- C9 (corrected): `jaccard` on the non-overlapping pair
`(0,0,1,1)`, `(2,2,3,3)` does not return a value — the source reads
`.area` off the `None` intersection, raising `AttributeError`
(modelled by the `none` result). -/
theorem C9_counterexample :
    BBox.overlaps ⟨0, 0, 1, 1⟩ ⟨2, 2, 3, 3⟩ = false ∧
      BBox.jaccard ⟨0, 0, 1, 1⟩ ⟨2, 2, 3, 3⟩ = none := by
  exact ⟨by decide, by decide⟩

set_option maxHeartbeats 1000000 in
/-- C9 (amended): the `BBox` operations are total except `jaccard`,
which returns a value exactly when the boxes overlap; in particular
`relative_overlap` handles the no-intersection case explicitly and
returns `0` there. -/
theorem C9_totality (a b : BBox) :
    ((BBox.jaccard a b).isSome ↔ BBox.overlaps a b = true) ∧
      (BBox.overlaps a b = false → BBox.relative_overlap a b = 0) := by
  have hov : BBox.overlaps a b = (BBox.intersection a b).isSome := rfl
  constructor
  · rw [hov]
    cases h : BBox.intersection a b with
    | none => simp only [BBox.jaccard, h, Option.isSome_none]
    | some i => simp only [BBox.jaccard, h, Option.isSome_some]
  · intro h
    rw [hov] at h
    cases h2 : BBox.intersection a b with
    | none => simp only [BBox.relative_overlap, h2]
    | some i => rw [h2] at h; simp at h

/-- Witness for C9 at the non-overlapping pair. -/
theorem C9_totality_witness :
    BBox.relative_overlap ⟨0, 0, 1, 1⟩ ⟨2, 2, 3, 3⟩ = 0 :=
  (C9_totality ⟨0, 0, 1, 1⟩ ⟨2, 2, 3, 3⟩).2 (by decide)

/-- C5: when grouping into text lines and then into columns yields
fewer than two columns, `split_into_columns` returns exactly one column
holding the original, unsplit item list (non-text items included).  The
positivity hypotheses mirror the `assert length > 0` of
`relative_overlaps` (with them, the Python code completes without an
`AssertionError` on the same input). -/
theorem C5_single_column_fallback (items : List LItem)
    (_hv : ∀ c ∈ items.filter (fun i => i.kind = LKind.chr), 0 < c.bbox.height)
    (_hl : ∀ line ∈ group_into_lines (items.filter fun i => i.kind = LKind.chr),
        0 < (lineHspan line).2 - (lineHspan line).1)
    (hcols : (columnsOfLines (group_into_lines
        (items.filter fun i => i.kind = LKind.chr))).length < 2) :
    split_into_columns items = [items] := by
  unfold split_into_columns
  rw [if_pos hcols]

/-- Witness for C5: two characters on one text line plus a rectangle;
one column results, equal to the original mixed item list. -/
theorem C5_single_column_fallback_witness :
    split_into_columns
        [⟨LKind.chr, ⟨0, 0, 1, 1⟩⟩, ⟨LKind.rect, ⟨0, 5, 10, 6⟩⟩,
         ⟨LKind.chr, ⟨1, 0, 2, 1⟩⟩] =
      [[⟨LKind.chr, ⟨0, 0, 1, 1⟩⟩, ⟨LKind.rect, ⟨0, 5, 10, 6⟩⟩,
        ⟨LKind.chr, ⟨1, 0, 2, 1⟩⟩]] :=
  C5_single_column_fallback _ (by with_unfolding_all decide)
    (by with_unfolding_all decide) (by with_unfolding_all decide)

/-- C6: the explicit `/BBox` attribute value enters the per-page union
exactly when the node's content spans exactly one page; when it spans
zero or several pages the attribute boxes are dropped (with a logged
error in the source) and the result is the union of content-fragment
and descendant bboxes alone. -/
theorem C6_attr_bbox_single_page (pages : List Nat) (content : Nat → List ContentItem)
    (subtree : Nat → List (Option BBox)) (attrs : List BBox) (p : Nat)
    (hp : p ∈ pages) :
    (pages.length = 1 →
      update_bbox_cache pages content subtree attrs p =
        BBox.Union ((((content p).filter fun i => !i.isSpaceText).map ContentItem.bbox)
          ++ (subtree p).filterMap id ++ attrs)) ∧
    (pages.length ≠ 1 →
      update_bbox_cache pages content subtree attrs p =
        BBox.Union ((((content p).filter fun i => !i.isSpaceText).map ContentItem.bbox)
          ++ (subtree p).filterMap id)) := by
  constructor
  · intro h1
    unfold update_bbox_cache
    rw [if_pos hp]
    simp [h1]
  · intro h1
    unfold update_bbox_cache
    rw [if_pos hp]
    by_cases ha : attrs = []
    · subst ha
      simp
    · simp [ha, h1]

/-- Witness for C6 on a node spanning two pages: the attribute box is
dropped from the page-3 union. -/
theorem C6_attr_bbox_single_page_witness :
    update_bbox_cache [3, 7] (fun _ => [⟨⟨0, 0, 1, 1⟩, false⟩])
        (fun _ => [some ⟨0, 0, 2, 2⟩, none]) [⟨5, 5, 6, 6⟩] 3 =
      BBox.Union ((([⟨⟨0, 0, 1, 1⟩, false⟩].filter
          fun i : ContentItem => !i.isSpaceText).map ContentItem.bbox)
        ++ ([some ⟨0, 0, 2, 2⟩, none].filterMap id)) :=
  (C6_attr_bbox_single_page [3, 7] (fun _ => [⟨⟨0, 0, 1, 1⟩, false⟩])
    (fun _ => [some ⟨0, 0, 2, 2⟩, none]) [⟨5, 5, 6, 6⟩] 3 (by decide)).2 (by decide)

theorem argminBy_mem {f : Nat → ℚ} {l : List Nat} {j : Nat}
    (h : argminBy f l = some j) : j ∈ l := by
  induction l generalizing j with
  | nil => simp [argminBy] at h
  | cons i is ih =>
    unfold argminBy at h
    cases h2 : argminBy f is with
    | none => rw [h2] at h; simp at h; simp [h]
    | some k =>
      rw [h2] at h
      simp only [] at h
      by_cases hlt : f k < f i
      · rw [if_pos hlt] at h
        simp at h
        subst h
        exact List.mem_cons_of_mem _ (ih h2)
      · rw [if_neg hlt] at h
        simp at h
        simp [h]

theorem cannAt_relabelAt (anns : List CAnn) (i k : Nat) (hk : k < anns.length) :
    cannAt (relabelAt anns i) k =
      (if k = i then { cannAt anns k with type := "Caption" } else cannAt anns k) := by
  unfold cannAt relabelAt
  rw [List.getD_eq_getElem?_getD, List.getD_eq_getElem?_getD]
  rw [List.getElem?_mapIdx]
  rw [List.getElem?_eq_getElem hk]
  simp

theorem nearestAbove_lt {t : CAnn} {anns : List CAnn} {i : Nat}
    (h : nearestAbove t anns = some i) : i < anns.length := by
  have hm := argminBy_mem h
  unfold aboveCandidates at hm
  exact List.mem_range.mp (List.mem_filter.mp hm).1

theorem nearestBelow_lt {t : CAnn} {anns : List CAnn} {i : Nat}
    (h : nearestBelow t anns = some i) : i < anns.length := by
  have hm := argminBy_mem h
  unfold belowCandidates at hm
  exact List.mem_range.mp (List.mem_filter.mp hm).1

theorem assign_caption_cases (t : CAnn) (anns : List CAnn) :
    assign_caption t anns = anns ∨
      ∃ i, i < anns.length ∧ assign_caption t anns = relabelAt anns i := by
  unfold assign_caption captionBelowPass
  cases ha : nearestAbove t anns with
  | some i =>
    simp only []
    by_cases hm : matchesCaption (cannAt anns i).text
    · right; exact ⟨i, nearestAbove_lt ha, by rw [if_pos hm]⟩
    · rw [if_neg hm]
      cases hb : nearestBelow t anns with
      | some j =>
        simp only []
        by_cases hm2 : matchesCaption (cannAt anns j).text
        · right; exact ⟨j, nearestBelow_lt hb, by rw [if_pos hm2]⟩
        · left; rw [if_neg hm2]
      | none => left; rfl
  | none =>
    simp only []
    cases hb : nearestBelow t anns with
    | some j =>
      simp only []
      by_cases hm2 : matchesCaption (cannAt anns j).text
      · right; exact ⟨j, nearestBelow_lt hb, by rw [if_pos hm2]⟩
      · left; rw [if_neg hm2]
    | none => left; rfl

/-- C10 (spec-modelled): (1) when the nearest horizontally-overlapping
candidate strictly above a table/figure matches the caption pattern, it
— and exactly it — is relabelled `Caption`; (2) the nearest below
candidate is consulted only when no above candidate matches; (3) at
most one candidate changes type per table/figure. -/
theorem C10_caption_assignment (t : CAnn) (anns : List CAnn) :
    (∀ i, nearestAbove t anns = some i →
      matchesCaption (cannAt anns i).text = true →
        assign_caption t anns = relabelAt anns i ∧
          (cannAt (assign_caption t anns) i).type = "Caption") ∧
    ((∀ i, nearestAbove t anns = some i → matchesCaption (cannAt anns i).text = false) →
      assign_caption t anns = captionBelowPass t anns) ∧
    (∀ k l, k < anns.length → l < anns.length →
      (cannAt (assign_caption t anns) k).type ≠ (cannAt anns k).type →
      (cannAt (assign_caption t anns) l).type ≠ (cannAt anns l).type → k = l) := by
  refine ⟨?_, ?_, ?_⟩
  · intro i ha hm
    have heq : assign_caption t anns = relabelAt anns i := by
      unfold assign_caption
      rw [ha]
      simp only []
      rw [if_pos hm]
    refine ⟨heq, ?_⟩
    rw [heq, cannAt_relabelAt anns i i (nearestAbove_lt ha)]
    simp
  · intro hnone
    unfold assign_caption
    cases ha : nearestAbove t anns with
    | some i =>
      simp only []
      rw [if_neg (by simp [hnone i ha])]
    | none => rfl
  · intro k l hk hl hck hcl
    rcases assign_caption_cases t anns with heq | ⟨i, hi, heq⟩
    · rw [heq] at hck; exact absurd rfl hck
    · rw [heq, cannAt_relabelAt anns i k hk] at hck
      rw [heq, cannAt_relabelAt anns i l hl] at hcl
      by_cases h1 : k = i
      · by_cases h2 : l = i
        · rw [h1, h2]
        · rw [if_neg h2] at hcl; exact absurd rfl hcl
      · rw [if_neg h1] at hck; exact absurd rfl hck

/-- Witness for C10: a figure with a matching candidate directly above
is relabelled (the spec's own test scenario, with the candidate strictly
above). -/
theorem C10_caption_assignment_witness :
    assign_caption ⟨"Figure", ⟨0, 0, 100, 50⟩, ""⟩
        [⟨"P", ⟨0, 51, 100, 60⟩, "Figure 1: results"⟩] =
      relabelAt [⟨"P", ⟨0, 51, 100, 60⟩, "Figure 1: results"⟩] 0 ∧
    (cannAt (assign_caption ⟨"Figure", ⟨0, 0, 100, 50⟩, ""⟩
        [⟨"P", ⟨0, 51, 100, 60⟩, "Figure 1: results"⟩]) 0).type = "Caption" :=
  (C10_caption_assignment ⟨"Figure", ⟨0, 0, 100, 50⟩, ""⟩
    [⟨"P", ⟨0, 51, 100, 60⟩, "Figure 1: results"⟩]).1 0 (by decide) (by decide)

section Cache

variable (parent : Nat → Option Nat)

theorem ancestorsFrom_fuel (hdec : ∀ i p, parent i = some p → p < i) :
    ∀ i f g, i < f → i < g → ancestorsFrom parent f i = ancestorsFrom parent g i := by
  intro i
  induction i using Nat.strong_induction_on with
  | _ i ih =>
    intro f g hf hg
    match f, g with
    | f + 1, g + 1 =>
      unfold ancestorsFrom
      cases hp : parent i with
      | none => rfl
      | some p =>
        simp only []
        have hpi := hdec i p hp
        rw [ih p hpi f g (by omega) (by omega)]

theorem mem_ancestorsFrom_le (hdec : ∀ i p, parent i = some p → p < i) :
    ∀ f i a, a ∈ ancestorsFrom parent f i → a ≤ i := by
  intro f
  induction f with
  | zero => intro i a h; simp [ancestorsFrom] at h
  | succ f ih =>
    intro i a h
    unfold ancestorsFrom at h
    rcases List.mem_cons.mp h with rfl | h2
    · exact le_refl _
    · cases hp : parent i with
      | none => rw [hp] at h2; simp at h2
      | some p =>
        rw [hp] at h2
        simp only [] at h2
        have := ih p a h2
        have := hdec i p hp
        omega

theorem ancestorsOf_parent (hdec : ∀ i p, parent i = some p → p < i)
    {i p : Nat} (hp : parent i = some p) :
    ancestorsOf parent i = i :: ancestorsOf parent p := by
  unfold ancestorsOf
  conv_lhs => unfold ancestorsFrom
  rw [hp]
  simp only []
  have hpi := hdec i p hp
  rw [ancestorsFrom_fuel parent hdec p i (p + 1) hpi (by omega)]

theorem ancestorsOf_root {i : Nat} (hroot : parent i = none) :
    ancestorsOf parent i = [i] := by
  unfold ancestorsOf ancestorsFrom
  rw [hroot]

theorem invalidateFuel_mono :
    ∀ f cache j x, invalidateFuel parent f cache j x = true → cache x = true := by
  intro f
  induction f with
  | zero => intro cache j x h; exact h
  | succ f ih =>
    intro cache j x h
    unfold invalidateFuel at h
    by_cases hc : cache j = true
    · rw [if_pos hc] at h
      cases hp : parent j with
      | none =>
        rw [hp] at h
        simp only [] at h
        by_cases hx : x = j
        · simp [hx] at h
        · simpa [hx] using h
      | some p =>
        rw [hp] at h
        simp only [] at h
        have h2 := ih _ _ _ h
        by_cases hx : x = j
        · simp [hx] at h2
        · simpa [hx] using h2
    · rw [if_neg hc] at h
      exact h

theorem invalidateFuel_fuel (hdec : ∀ i p, parent i = some p → p < i) :
    ∀ i f g cache, i < f → i < g →
      invalidateFuel parent f cache i = invalidateFuel parent g cache i := by
  intro i
  induction i using Nat.strong_induction_on with
  | _ i ih =>
    intro f g cache hf hg
    match f, g with
    | f + 1, g + 1 =>
      unfold invalidateFuel
      by_cases hc : cache i = true
      · rw [if_pos hc, if_pos hc]
        cases hp : parent i with
        | none => rfl
        | some p =>
          simp only []
          have hpi := hdec i p hp
          exact ih p hpi f g _ (by omega) (by omega)
      · rw [if_neg hc, if_neg hc]

theorem invalidateFuel_self :
    ∀ f cache j, 0 < f → cache j = true →
      invalidateFuel parent f cache j j = false := by
  intro f cache j hf hc
  cases f with
  | zero => omega
  | succ f =>
    unfold invalidateFuel
    rw [if_pos hc]
    cases hp : parent j with
    | none => simp
    | some p =>
      simp only []
      by_cases hres : invalidateFuel parent f
          (fun x => if x = j then false else cache x) p j = true
      · have := invalidateFuel_mono parent _ _ _ _ hres
        simp at this
      · simpa using hres

theorem ancestorsOf_cons (i : Nat) :
    ancestorsOf parent i = i :: (match parent i with
      | none => []
      | some p => ancestorsFrom parent i p) := rfl

theorem chainTo_self (i : Nat) : chainTo parent i i = [i] := by
  unfold chainTo
  rw [ancestorsOf_cons]
  rw [List.takeWhile_cons]
  simp

theorem chainTo_parent (hdec : ∀ i p, parent i = some p → p < i)
    {i p a : Nat} (hp : parent i = some p) (ha : a ∈ ancestorsOf parent p) :
    chainTo parent i a = i :: chainTo parent p a := by
  have hai : i ≠ a := by
    have h1 := mem_ancestorsFrom_le parent hdec (p + 1) p a ha
    have h2 := hdec i p hp
    omega
  unfold chainTo
  rw [ancestorsOf_parent parent hdec hp]
  rw [List.takeWhile_cons]
  rw [if_pos (by simpa using hai)]
  rfl

theorem chainTo_le (hdec : ∀ i p, parent i = some p → p < i)
    {p a : Nat} (ha : a ∈ ancestorsOf parent p) :
    ∀ b ∈ chainTo parent p a, b ≤ p := by
  intro b hb
  unfold chainTo at hb
  rcases List.mem_append.mp hb with h1 | h2
  · exact mem_ancestorsFrom_le parent hdec (p + 1) p b
      ((List.takeWhile_sublist _).subset h1)
  · simp at h2
    subst h2
    exact mem_ancestorsFrom_le parent hdec (p + 1) p b ha

theorem all_erase_ne (s : Nat → Bool) (i : Nat) :
    ∀ l : List Nat, (∀ b ∈ l, b ≠ i) →
      (l.all fun x => if x = i then false else s x) = l.all s := by
  intro l hl
  induction l with
  | nil => rfl
  | cons x t iht =>
    simp only [List.all_cons]
    rw [if_neg (hl x (List.mem_cons_self x t))]
    rw [iht fun b hb => hl b (List.mem_cons_of_mem x hb)]

/-- Exact effect of `_invalidate_caches` started at `i` on an ancestor
`a`: its cache survives exactly when it held data and some cache on the
chain from `i` up to `a` was already invalid (the walk stops there). -/
theorem invalidate_chainTo (hdec : ∀ i p, parent i = some p → p < i) :
    ∀ i (s : Nat → Bool) a, a ∈ ancestorsOf parent i →
      invalidate_caches parent s i a = (s a && !((chainTo parent i a).all s)) := by
  intro i
  induction i using Nat.strong_induction_on with
  | _ i ih =>
    intro s a ha
    unfold invalidate_caches
    unfold invalidateFuel
    by_cases hsi : s i = true
    · rw [if_pos hsi]
      cases hp : parent i with
      | none =>
        rw [ancestorsOf_root parent hp] at ha
        simp at ha
        subst ha
        simp only []
        rw [chainTo_self]
        simp [hsi]
      | some p =>
        simp only []
        have hpi := hdec i p hp
        rw [invalidateFuel_fuel parent hdec p i (p + 1) _ hpi (by omega)]
        rw [ancestorsOf_parent parent hdec hp] at ha
        rcases List.mem_cons.mp ha with hcase | ha2
        · subst hcase
          have hres : invalidateFuel parent (p + 1)
              (fun j => if j = a then false else s j) p a = false := by
            cases h : invalidateFuel parent (p + 1)
                (fun j => if j = a then false else s j) p a
            · rfl
            · have := invalidateFuel_mono parent _ _ _ _ h
              simp at this
          rw [hres, chainTo_self]
          simp [hsi]
        · have hale : a ≤ p := mem_ancestorsFrom_le parent hdec (p + 1) p a ha2
          have hIH := ih p hpi (fun j => if j = i then false else s j) a ha2
          unfold invalidate_caches at hIH
          rw [hIH]
          rw [chainTo_parent parent hdec hp ha2]
          simp only [List.all_cons, hsi, Bool.true_and]
          rw [if_neg (by omega : a ≠ i)]
          rw [all_erase_ne s i (chainTo parent p a)
            fun b hb => by have := chainTo_le parent hdec ha2 b hb; omega]
    · rw [if_neg hsi]
      have hsif : s i = false := by simpa using hsi
      by_cases hai : a = i
      · subst hai
        rw [hsif]
        simp
      · cases hp : parent i with
        | none =>
          rw [ancestorsOf_root parent hp] at ha
          simp at ha
          exact absurd ha hai
        | some p =>
          rw [ancestorsOf_parent parent hdec hp] at ha
          rcases List.mem_cons.mp ha with h1 | ha2
          · exact absurd h1 hai
          · rw [chainTo_parent parent hdec hp ha2]
            simp [hsif]

/-- C2 (corrected): the `_invalidate_caches` walk performed by
`add_content_item` on node `i` clears the cache of an ancestor `a`
exactly when every cache on the chain from `i` up to `a` held data:
`a`'s cache afterwards equals its old state and-ed with the failure of
that all-valid test, so an ancestor sitting above an already-invalid
intermediate cache keeps its entry — stale if its cached value predates
the new content — and `get_bbox` on a node whose cache is valid returns
the cached value unchanged, performing no recomputation.  (`hdec`:
parents are constructed before their children, so every node's parent
has a smaller index.) -/
theorem C2_cache_invalidation (hdec : ∀ i p, parent i = some p → p < i)
    (s : Nat → Bool) (i a : Nat) (ha : a ∈ ancestorsOf parent i) :
    invalidate_caches parent s i a = (s a && !((chainTo parent i a).all s)) ∧
      ∀ st : CacheSt, st.cache a = true → get_bbox_fill parent st a = st :=
  ⟨invalidate_chainTo parent hdec i s a ha,
   fun st hc => by unfold get_bbox_fill; rw [if_pos hc]⟩

end Cache

/-- Counterexample to C2 as claimed: on the three-node chain
`0 ← 1 ← 2` with all page sets empty (a freshly built tree), `get_bbox`
on the root validates the root alone — the per-page recompute loop
never runs, so nodes 1 and 2 stay uncached; `add_content_item` on node
2 then stops at node 2's already-invalid cache, the root keeps its
valid but now stale entry, and a subsequent `get_bbox` on the root is a
no-op returning the stale cached bbox instead of recomputing with the
newly attached content. -/
theorem C2_counterexample :
    (runOps chainParent [CacheOp.getBbox 0]).cache 0 = true ∧
    (runOps chainParent [CacheOp.getBbox 0]).cache 1 = false ∧
    (runOps chainParent
      [CacheOp.getBbox 0, CacheOp.addContent 2]).cache 0 = true ∧
    runOps chainParent [CacheOp.getBbox 0, CacheOp.addContent 2, CacheOp.getBbox 0] =
      runOps chainParent [CacheOp.getBbox 0, CacheOp.addContent 2] :=
  ⟨rfl, rfl, rfl, rfl⟩

/-- Witness for C2 on the three-node chain, at the reachable state in
which only the root's cache holds data: invalidation starting at the
leaf leaves the root's cache in place (`true`), as the characterization
computes. -/
theorem C2_cache_invalidation_witness :
    (0 ∈ ancestorsOf chainParent 2) ∧
      invalidate_caches chainParent (runOps chainParent [CacheOp.getBbox 0]).cache 2 0 =
        ((runOps chainParent [CacheOp.getBbox 0]).cache 0 &&
          !((chainTo chainParent 2 0).all (runOps chainParent [CacheOp.getBbox 0]).cache)) :=
  ⟨by decide,
   (C2_cache_invalidation chainParent
     (fun i p h => by
       cases i with
       | zero => simp [chainParent] at h
       | succ m =>
         simp [chainParent] at h
         omega)
     (runOps chainParent [CacheOp.getBbox 0]).cache 2 0 (by decide)).1⟩

/-- C3 (corrected): two counterexamples to the claim as stated.
First, two annotations with bit-identical but empty bboxes
`(0,0,0,0)` reduce to two, not one: equal empty boxes do not overlap,
so the pair never enters the overlap list and no duplicate is recorded.
Second, in `[A, A, C]` with `A = (0,0,10,10)` and `C = (-1,-1,11,11)`,
the first duplicate `A` is not kept: it is eliminated by containment in
`C`, leaving only `C`. -/
theorem C3_counterexample :
    eliminate_overlaps [⟨"P", ⟨0,0,0,0⟩⟩, ⟨"P", ⟨0,0,0,0⟩⟩] =
        [⟨"P", ⟨0,0,0,0⟩⟩, ⟨"P", ⟨0,0,0,0⟩⟩] ∧
      eliminate_overlaps [⟨"P", ⟨0,0,10,10⟩⟩, ⟨"P", ⟨0,0,10,10⟩⟩, ⟨"P", ⟨-1,-1,11,11⟩⟩] =
        [⟨"P", ⟨-1,-1,11,11⟩⟩] := by
  exact ⟨by decide, by with_unfolding_all decide⟩

theorem overlaps_comm (a b : BBox) : BBox.overlaps a b = BBox.overlaps b a := by
  unfold BBox.overlaps BBox.Intersection
  simp only [List.foldl_cons, List.foldl_nil]
  rw [meetBB_comm]

theorem overlaps_self (a : BBox) (ha : a.is_empty = false) :
    BBox.overlaps a a = true := by
  unfold BBox.overlaps BBox.Intersection
  simp only [List.foldl_cons, List.foldl_nil]
  have : BBox.meetBB a a = a := by simp [BBox.meetBB]
  rw [this, ha]
  simp

theorem contains_overlaps {a b : BBox} (h : BBox.contains a b = true) :
    BBox.overlaps a b = true := by
  rw [contains_eq] at h
  unfold BBox.overlaps BBox.Intersection
  simp only [List.foldl_cons, List.foldl_nil]
  unfold BBox.intersection at h
  by_cases he : (BBox.meetBB a b).is_empty
  · rw [if_pos he] at h; exact absurd h (by simp)
  · rw [if_neg he]
    simp [he]

theorem mem_find_overlaps (l : List Anno) (x y : Nat) :
    (x, y) ∈ find_overlaps l ↔
      x < y ∧ y < l.length ∧
        BBox.overlaps (annAt l x).bbox (annAt l y).bbox = true := by
  unfold find_overlaps
  simp only [List.mem_flatMap, List.mem_filterMap, List.mem_filter, List.mem_range,
    decide_eq_true_eq]
  constructor
  · rintro ⟨a, ha, b, ⟨hb, hab⟩, h⟩
    by_cases hov : BBox.overlaps (annAt l a).bbox (annAt l b).bbox = true
    · rw [if_pos hov] at h
      injection h with h1
      injection h1 with h2 h3
      subst h2; subst h3
      exact ⟨hab, hb, hov⟩
    · rw [if_neg hov] at h
      exact absurd h (by simp)
  · rintro ⟨hxy, hy, hov⟩
    exact ⟨x, lt_trans hxy hy, ⟨y, ⟨hy, hxy⟩, by rw [if_pos hov]⟩⟩

theorem mem_find_duplicates (l : List Anno) (ovl : List (Nat × Nat)) (y : Nat) :
    y ∈ find_duplicates l ovl ↔
      ∃ x, (x, y) ∈ ovl ∧ (annAt l x).bbox = (annAt l y).bbox := by
  unfold find_duplicates
  simp only [List.mem_filterMap]
  constructor
  · rintro ⟨p, hp, h⟩
    by_cases heq : (annAt l p.1).bbox = (annAt l p.2).bbox
    · rw [if_pos heq] at h
      injection h with h1
      subst h1
      exact ⟨p.1, hp, heq⟩
    · rw [if_neg heq] at h
      exact absurd h (by simp)
  · rintro ⟨x, hx, heq⟩
    exact ⟨(x, y), hx, by rw [if_pos heq]⟩

theorem mem_find_contained (l : List Anno) (ovl : List (Nat × Nat)) (ig : List Nat)
    (z : Nat) :
    z ∈ find_contained l ovl ig ↔
      ∃ p ∈ ovl, (annAt l p.1).bbox ≠ (annAt l p.2).bbox ∧
        ((BBox.contains (annAt l p.1).bbox (annAt l p.2).bbox = true ∧
            ig.contains p.1 = false ∧ z = p.2) ∨
         (¬(BBox.contains (annAt l p.1).bbox (annAt l p.2).bbox = true ∧
              ig.contains p.1 = false) ∧
          BBox.contains (annAt l p.2).bbox (annAt l p.1).bbox = true ∧
            ig.contains p.2 = false ∧ z = p.1)) := by
  unfold find_contained
  simp only [List.mem_filterMap]
  constructor
  · rintro ⟨p, hp, h⟩
    by_cases heq : (annAt l p.1).bbox = (annAt l p.2).bbox
    · rw [if_pos heq] at h; exact absurd h (by simp)
    · rw [if_neg heq] at h
      by_cases h1 : BBox.contains (annAt l p.1).bbox (annAt l p.2).bbox = true ∧
          ig.contains p.1 = false
      · rw [if_pos (by rw [Bool.and_eq_true]; exact ⟨h1.1, by rw [h1.2]; rfl⟩)] at h
        injection h with hz
        exact ⟨p, hp, heq, Or.inl ⟨h1.1, h1.2, hz.symm⟩⟩
      · rw [if_neg (by
          intro hb
          simp only [Bool.and_eq_true, Bool.not_eq_true'] at hb
          exact h1 ⟨hb.1, hb.2⟩)] at h
        by_cases h2 : BBox.contains (annAt l p.2).bbox (annAt l p.1).bbox = true ∧
            ig.contains p.2 = false
        · rw [if_pos (by rw [Bool.and_eq_true]; exact ⟨h2.1, by rw [h2.2]; rfl⟩)] at h
          injection h with hz
          exact ⟨p, hp, heq, Or.inr ⟨h1, h2.1, h2.2, hz.symm⟩⟩
        · rw [if_neg (by
            intro hb
            simp only [Bool.and_eq_true, Bool.not_eq_true'] at hb
            exact h2 ⟨hb.1, hb.2⟩)] at h
          exact absurd h (by simp)
  · rintro ⟨p, hp, heq, hcase⟩
    refine ⟨p, hp, ?_⟩
    rw [if_neg heq]
    rcases hcase with ⟨hc, hig, hz⟩ | ⟨hnot, hc, hig, hz⟩
    · rw [if_pos (by rw [Bool.and_eq_true]; exact ⟨hc, by rw [hig]; rfl⟩)]
      rw [hz]
    · rw [if_neg (by
        intro hb
        simp only [Bool.and_eq_true, Bool.not_eq_true'] at hb
        exact hnot ⟨hb.1, hb.2⟩)]
      rw [if_pos (by rw [Bool.and_eq_true]; exact ⟨hc, by rw [hig]; rfl⟩)]
      rw [hz]

theorem mutual_contains_eq {a b : BBox} (h1 : BBox.contains a b = true)
    (h2 : BBox.contains b a = true) : a = b := by
  rw [contains_eq] at h1 h2
  rw [intersection_comm] at h2
  rw [h1] at h2
  exact (Option.some_injective _ h2).symm

theorem not_contains_of_ne_of_contains {a b : BBox}
    (hc : BBox.contains a b = true) (hne : a ≠ b) :
    BBox.contains b a = false := by
  by_cases h : BBox.contains b a = true
  · exact absurd (mutual_contains_eq hc h) hne
  · simpa using h

theorem dups_contains_eq_false {l : List Anno} {a : Nat}
    (h : a ∉ eliminatedSet l) :
    (find_duplicates l (find_overlaps l)).contains a = false := by
  by_cases hm : a ∈ find_duplicates l (find_overlaps l)
  · exact absurd (by
      unfold eliminatedSet
      exact List.mem_append_left _ hm) h
  · simpa using hm

/-- C3 (amended): in terms of the eliminated set of
`eliminate_overlaps` (an annotation is dropped iff its index is in it):
(1) of two annotations with bit-identical non-empty bboxes the later one
is always eliminated; (2) the first one is kept provided no earlier
annotation shares its bbox and no other annotation's bbox strictly
contains it; (3) when one annotation's bbox strictly contains another's
and the container is not itself eliminated, the contained one is
dropped. -/
theorem C3_overlap_elimination (l : List Anno) :
    (∀ i j, i < j → j < l.length →
      (annAt l i).bbox = (annAt l j).bbox → (annAt l i).bbox.is_empty = false →
        j ∈ eliminatedSet l) ∧
    (∀ i, i < l.length →
      (∀ k, k < i → (annAt l k).bbox ≠ (annAt l i).bbox) →
      (∀ k, k < l.length → k ≠ i →
        ¬(BBox.contains (annAt l k).bbox (annAt l i).bbox = true ∧
          (annAt l k).bbox ≠ (annAt l i).bbox)) →
        i ∉ eliminatedSet l) ∧
    (∀ a b, a < l.length → b < l.length → a ≠ b →
      BBox.contains (annAt l a).bbox (annAt l b).bbox = true →
      (annAt l a).bbox ≠ (annAt l b).bbox →
      a ∉ eliminatedSet l → b ∈ eliminatedSet l) := by
  refine ⟨?_, ?_, ?_⟩
  · intro i j hij hj heq hne
    unfold eliminatedSet
    apply List.mem_append_left
    rw [mem_find_duplicates]
    refine ⟨i, ?_, heq⟩
    rw [mem_find_overlaps]
    refine ⟨hij, hj, ?_⟩
    rw [heq]
    exact overlaps_self _ (by rw [← heq]; exact hne)
  · intro i hi hfirst hnocont hmem
    unfold eliminatedSet at hmem
    rcases List.mem_append.mp hmem with hd | hc
    · rw [mem_find_duplicates] at hd
      obtain ⟨x, hpair, heqx⟩ := hd
      rw [mem_find_overlaps] at hpair
      exact hfirst x hpair.1 heqx
    · rw [mem_find_contained] at hc
      obtain ⟨p, hp, hnep, hcase⟩ := hc
      rw [mem_find_overlaps] at hp
      rcases hcase with ⟨hcont, _, hz⟩ | ⟨_, hcont, _, hz⟩
      · subst hz
        exact hnocont p.1 (lt_trans hp.1 hp.2.1) (Nat.ne_of_lt hp.1) ⟨hcont, hnep⟩
      · subst hz
        exact hnocont p.2 hp.2.1 (Nat.ne_of_gt hp.1)
          ⟨hcont, fun h => hnep h.symm⟩
  · intro a b ha hb hab hc hneq hnotelim
    unfold eliminatedSet
    apply List.mem_append_right
    rw [mem_find_contained]
    rcases Nat.lt_or_ge a b with hlt | hge
    · refine ⟨(a, b), ?_, hneq, Or.inl ⟨hc, dups_contains_eq_false hnotelim, rfl⟩⟩
      rw [mem_find_overlaps]
      exact ⟨hlt, hb, contains_overlaps hc⟩
    · have hlt : b < a := by omega
      refine ⟨(b, a), ?_, fun h => hneq h.symm,
        Or.inr ⟨?_, hc, dups_contains_eq_false hnotelim, rfl⟩⟩
      · rw [mem_find_overlaps]
        refine ⟨hlt, ha, ?_⟩
        rw [overlaps_comm]
        exact contains_overlaps hc
      · rintro ⟨hcba, _⟩
        exact absurd (mutual_contains_eq hcba hc) (fun h => hneq h.symm)

/-- Witness for C3: the spec's own scenarios — an identical pair keeps
only the first, and a contained annotation is dropped. -/
theorem C3_overlap_elimination_witness :
    (1 ∈ eliminatedSet [⟨"P", ⟨0, 0, 10, 10⟩⟩, ⟨"P", ⟨0, 0, 10, 10⟩⟩]) ∧
    (0 ∉ eliminatedSet [⟨"P", ⟨0, 0, 10, 10⟩⟩, ⟨"P", ⟨0, 0, 10, 10⟩⟩]) ∧
    (1 ∈ eliminatedSet [⟨"P", ⟨0, 0, 10, 10⟩⟩, ⟨"Table", ⟨2, 2, 5, 5⟩⟩]) :=
  ⟨(C3_overlap_elimination _).1 0 1 (by decide) (by decide) (by decide) (by decide),
   (C3_overlap_elimination _).2.1 0 (by decide) (by decide) (by decide),
   (C3_overlap_elimination _).2.2 0 1 (by decide) (by decide) (by decide) (by decide)
     (by decide) (by decide)⟩

/-- C1 (corrected): two counterexamples to the claim as stated.
First, when the resolved element has no direct child leaf with the
matching sequence id, `StructElem._add_content_item` raises
`ValueError` and nothing catches it, so association does raise
(`Except.error AErr.attachErr`).  Second, when the page's parent-index
slot is `None`, the fragment is skipped with `continue` — the attach
loop records nothing, and the extractor's non-marked record (which only
ever holds fragments without a sequence id) does not contain it either:
it is silently dropped, not recorded as non-marked. -/
theorem C1_counterexample :
    (associate ⟨[some 0], [(0, [some 7])], [(7, [SNode.mcidLeaf 99])]⟩ 0
        [⟨some 0, 0⟩] = Except.error AErr.attachErr) ∧
    (associate ⟨[none], [], []⟩ 0 [⟨some 0, 5⟩] = Except.ok [] ∧
      nonmarked_items [⟨some 0, 5⟩] = []) := by
  refine ⟨?_, ?_, ?_⟩ <;> rfl

/-- C1 (amended): (1) when every fragment with a sequence id either
resolves to an element owning a matching child leaf or misses (null
slot, out-of-range id, null entry, unregistered element), association
completes without raising and attaches exactly the resolving fragments,
in order; (2) the non-marked record holds only fragments without a
sequence id (so resolution misses are never recorded there); (3) a
fragment whose resolved element has no matching direct child makes the
association loop raise `ValueError`. -/
theorem C1_association (cfg : AssocCfg) (page : Nat) :
    (∀ frags : List Frag, (∀ f ∈ frags, ∀ m, f.mcid = some m →
        get_struct_elem cfg page m = Except.ok none ∨
        ∃ ch, get_struct_elem cfg page m = Except.ok (some ch) ∧
          ch.any (fun c => childMcid c = some (m : Int)) = true) →
      associate cfg page frags =
        Except.ok ((frags.filter fun f =>
          match f.mcid with
          | none => false
          | some m =>
            match get_struct_elem cfg page m with
            | Except.ok (some ch) => ch.any fun c => childMcid c = some (m : Int)
            | _ => false).map Frag.fragId)) ∧
    (∀ (frags : List Frag) (f : Frag), f ∈ nonmarked_items frags → f.mcid = none) ∧
    (∀ (f : Frag) (fs : List Frag) (m : Nat) (ch : List SNode), f.mcid = some m →
      get_struct_elem cfg page m = Except.ok (some ch) →
      ch.any (fun c => childMcid c = some (m : Int)) = false →
      associate cfg page (f :: fs) = Except.error AErr.attachErr) := by
  refine ⟨?_, ?_, ?_⟩
  · intro frags
    induction frags with
    | nil => intro _; rfl
    | cons f fs ih =>
      intro h
      have hf := h f (List.mem_cons_self f fs)
      have hrest : ∀ g ∈ fs, ∀ m, g.mcid = some m →
          get_struct_elem cfg page m = Except.ok none ∨
          ∃ ch, get_struct_elem cfg page m = Except.ok (some ch) ∧
            ch.any (fun c => childMcid c = some (m : Int)) = true :=
        fun g hg => h g (List.mem_cons_of_mem _ hg)
      unfold associate
      cases hm : f.mcid with
      | none =>
        simp only []
        rw [ih hrest]
        simp only [List.filter_cons, hm]
        rw [if_neg (by simp)]
      | some m =>
        simp only []
        rcases hf m hm with hnone | ⟨ch, hch, hany⟩
        · rw [hnone]
          simp only []
          rw [ih hrest]
          simp only [List.filter_cons, hm, hnone]
          rw [if_neg (by simp)]
        · rw [hch]
          simp only []
          unfold add_content_elem
          rw [if_pos hany]
          simp only []
          rw [ih hrest]
          simp only [List.filter_cons, hm, hch, hany]
          rw [if_pos (by simp)]
          rfl
  · intro frags f hf
    unfold nonmarked_items at hf
    have := List.mem_filter.mp hf
    simpa using this.2
  · intro f fs m ch hm hget hany
    unfold associate
    rw [hm]
    simp only []
    rw [hget]
    simp only []
    unfold add_content_elem
    rw [if_neg (by simp [hany])]

/-- Witness for C1: one fragment attaches, one misses (null array
entry) and is skipped, one has no sequence id. -/
theorem C1_association_witness :
    associate ⟨[some 0], [(0, [some 7, none])], [(7, [SNode.mcidLeaf 0])]⟩ 0
        [⟨some 0, 10⟩, ⟨some 1, 11⟩, ⟨none, 12⟩] = Except.ok [10] :=
  ((C1_association ⟨[some 0], [(0, [some 7, none])], [(7, [SNode.mcidLeaf 0])]⟩ 0).1
    [⟨some 0, 10⟩, ⟨some 1, 11⟩, ⟨none, 12⟩]
    (by
      intro f hf m hm
      simp only [List.mem_cons, List.not_mem_nil, or_false] at hf
      rcases hf with rfl | rfl | rfl
      · right
        injection hm with h
        subst h
        exact ⟨[SNode.mcidLeaf 0], rfl, by decide⟩
      · left
        injection hm with h
        subst h
        rfl
      · exact absurd hm (by simp))).trans rfl

/-- C7 (corrected): counterexample at a concrete input — a parent whose
kids array holds a malformed child of an unexpected record kind (a
string).  `parse_child` raises `NotImplementedError`, `add_child`
catches only `ValueError`, so the whole parent construction fails
instead of dropping the child and keeping the siblings. -/
theorem C7_counterexample :
    parse_childF 5 ⟨none, none⟩
        (PObj.dict 1 true
          [("S", PObj.name "P"), ("P", PObj.dict 99 true []),
           ("K", PObj.arr [PObj.int 1, PObj.str "x", PObj.int 2])]) [] =
      ([1], Except.error (PErr.otherErr "NotImplementedError")) := rfl

theorem addChild_foldl_error (p : PObj → List Nat → List Nat × Except PErr SNode) :
    ∀ (ks : List PObj) (acc : List Nat) (e : PErr),
      ks.foldl (addChildStep p) (acc, Except.error e) = (acc, Except.error e) := by
  intro ks
  induction ks with
  | nil => intro acc e; rfl
  | cons k ks ih =>
    intro acc e
    rw [List.foldl_cons]
    exact ih acc e

theorem parent_ok_of_kids_ok (fuel og pog : Nat) (ind : Bool) (kids : List PObj)
    (acc acc' : List Nat) (children : List SNode)
    (hog : og ∉ acc)
    (h : build_kidsF fuel ⟨none, none⟩ kids (og :: acc) = (acc', Except.ok children)) :
    parse_childF (fuel + 1) ⟨none, none⟩
        (PObj.dict og ind
          [("S", PObj.name "P"), ("P", PObj.dict pog true []),
           ("K", PObj.arr kids)]) acc =
      (acc', Except.ok (SNode.elem "P" "P" children)) := by
  have hstart : parse_childF (fuel + 1) ⟨none, none⟩
      (PObj.dict og ind
        [("S", PObj.name "P"), ("P", PObj.dict pog true []),
         ("K", PObj.arr kids)]) acc =
      build_elem_restF (parse_childF fuel ⟨none, none⟩) ⟨none, none⟩
        [("S", PObj.name "P"), ("P", PObj.dict pog true []),
         ("K", PObj.arr kids)] (og :: acc) := by
    show build_elemF (parse_childF fuel ⟨none, none⟩) ⟨none, none⟩ og ind
        [("S", PObj.name "P"), ("P", PObj.dict pog true []),
         ("K", PObj.arr kids)] acc = _
    unfold build_elemF
    rw [if_neg hog]
    rfl
  rw [hstart]
  unfold build_kidsF at h
  conv_lhs => whnf
  rw [show dictGet [("S", PObj.name "P"), ("P", PObj.dict pog true []),
      ("K", PObj.arr kids)] "K" = some (PObj.arr kids) from rfl]
  simp only []
  rw [h]
  rfl

/-- C7 (amended): (1) a child whose `parse_child` fails with
`ValueError` is dropped: the remaining siblings are processed from the
post-failure registration state; (2) a child failing with any other
exception class aborts the enclosing construction; (3) a parent element
whose own entries are well formed is built successfully around its
surviving children; (4) at the tree root nothing is caught: a kid whose
construction fails — even with `ValueError` — is fatal for the whole
tree. -/
theorem C7_malformed_child_policy :
    (∀ (fuel : Nat) (ctx : BuildCtx) (k : PObj) (ks : List PObj)
        (acc acc' : List Nat) (m : String),
      parse_childF fuel ctx k acc = (acc', Except.error (PErr.valueErr m)) →
      build_kidsF fuel ctx (k :: ks) acc = build_kidsF fuel ctx ks acc') ∧
    (∀ (fuel : Nat) (ctx : BuildCtx) (k : PObj) (ks : List PObj)
        (acc acc' : List Nat) (m : String),
      parse_childF fuel ctx k acc = (acc', Except.error (PErr.otherErr m)) →
      build_kidsF fuel ctx (k :: ks) acc = (acc', Except.error (PErr.otherErr m))) ∧
    (∀ (fuel og pog : Nat) (ind : Bool) (kids : List PObj)
        (acc acc' : List Nat) (children : List SNode),
      og ∉ acc →
      build_kidsF fuel ⟨none, none⟩ kids (og :: acc) = (acc', Except.ok children) →
      parse_childF (fuel + 1) ⟨none, none⟩
          (PObj.dict og ind
            [("S", PObj.name "P"), ("P", PObj.dict pog true []),
             ("K", PObj.arr kids)]) acc =
        (acc', Except.ok (SNode.elem "P" "P" children))) ∧
    (∀ (fuel : Nat) (ctx : BuildCtx) (og : Nat) (ind : Bool)
        (entries : List (String × PObj)) (kids2 : List PObj)
        (acc acc' : List Nat) (m : String),
      build_elemF (parse_childF fuel ctx) ctx og ind entries acc =
          (acc', Except.error (PErr.valueErr m)) →
      build_root_kidsF fuel ctx
          (some (PObj.arr (PObj.dict og ind entries :: kids2))) acc =
        (acc', Except.error (PErr.valueErr m))) := by
  refine ⟨?_, ?_, ?_, ?_⟩
  · intro fuel ctx k ks acc acc' m h
    unfold build_kidsF
    rw [List.foldl_cons]
    have hstep : addChildStep (parse_childF fuel ctx) (acc, Except.ok []) k =
        (acc', Except.ok []) := by
      unfold addChildStep
      simp only []
      rw [h]
    rw [hstep]
  · intro fuel ctx k ks acc acc' m h
    unfold build_kidsF
    rw [List.foldl_cons]
    have hstep : addChildStep (parse_childF fuel ctx) (acc, Except.ok []) k =
        (acc', Except.error (PErr.otherErr m)) := by
      unfold addChildStep
      simp only []
      rw [h]
    rw [hstep]
    exact addChild_foldl_error _ ks acc' (PErr.otherErr m)
  · intro fuel og pog ind kids acc acc' children hog h
    exact parent_ok_of_kids_ok fuel og pog ind kids acc acc' children hog h
  · intro fuel ctx og ind entries kids2 acc acc' m h
    unfold build_root_kidsF
    simp only []
    rw [List.foldl_cons]
    simp only []
    rw [h]
    simp only []
    induction kids2 with
    | nil => rfl
    | cons k ks ih =>
      rw [List.foldl_cons]
      exact ih

/-- Witness for C7: a parent with a `ValueError` child (a kid
dictionary missing its required `S`) and a well-formed integer sibling
is built with just the sibling; the same malformed record as a root kid
is fatal. -/
theorem C7_malformed_child_policy_witness :
    (build_kidsF 3 ⟨none, none⟩ [PObj.dict 5 true [], PObj.int 7] [] =
      build_kidsF 3 ⟨none, none⟩ [PObj.int 7] [5]) ∧
    (parse_childF 4 ⟨none, none⟩
        (PObj.dict 1 true
          [("S", PObj.name "P"), ("P", PObj.dict 99 true []),
           ("K", PObj.arr [PObj.dict 5 true [], PObj.int 7])]) [] =
      ([5, 1], Except.ok (SNode.elem "P" "P" [SNode.mcidLeaf 7]))) ∧
    (build_root_kidsF 2 ⟨none, none⟩
        (some (PObj.arr [PObj.dict 5 true [], PObj.int 7])) [] =
      ([5], Except.error (PErr.valueErr "missing key"))) :=
  ⟨C7_malformed_child_policy.1 3 ⟨none, none⟩ (PObj.dict 5 true []) [PObj.int 7]
      [] [5] "missing key" rfl,
   C7_malformed_child_policy.2.2.1 3 1 99 true [PObj.dict 5 true [], PObj.int 7]
      [] [5, 1] [SNode.mcidLeaf 7] (by decide) rfl,
   C7_malformed_child_policy.2.2.2 2 ⟨none, none⟩ 5 true [] [PObj.int 7]
      [] [5] "missing key" rfl⟩

theorem subBB_refl (a : BBox) : subBB a a := by
  unfold subBB
  exact ⟨le_refl _, le_refl _, le_refl _, le_refl _⟩

theorem subBB_trans {a b c : BBox} (h1 : subBB a b) (h2 : subBB b c) : subBB a c := by
  obtain ⟨x1, y1, z1, w1⟩ := h1
  obtain ⟨x2, y2, z2, w2⟩ := h2
  exact ⟨le_trans x2 x1, le_trans y2 y1, le_trans z1 z2, le_trans w1 w2⟩

theorem subBB_join_left (a b : BBox) : subBB a (BBox.joinBB a b) := by
  unfold subBB BBox.joinBB
  exact ⟨min_le_left _ _, min_le_left _ _, le_max_left _ _, le_max_left _ _⟩

theorem subBB_join_right (a b : BBox) : subBB b (BBox.joinBB a b) := by
  unfold subBB BBox.joinBB
  exact ⟨min_le_right _ _, min_le_right _ _, le_max_right _ _, le_max_right _ _⟩

theorem join_absorb {a b : BBox} (h : subBB a b) : BBox.joinBB b a = b := by
  obtain ⟨x, y, z, w⟩ := h
  unfold BBox.joinBB
  cases b
  simp only [BBox.mk.injEq]
  exact ⟨min_eq_left x, min_eq_left y, max_eq_left z, max_eq_left w⟩

theorem foldl_join_sub_init (q : List BBox) : ∀ b, subBB b (q.foldl BBox.joinBB b) := by
  induction q with
  | nil => intro b; exact subBB_refl b
  | cons x q ih =>
    intro b
    rw [List.foldl_cons]
    exact subBB_trans (subBB_join_left b x) (ih _)

theorem foldl_join_sub_mem {q : List BBox} {c : BBox} (hc : c ∈ q) :
    ∀ b, subBB c (q.foldl BBox.joinBB b) := by
  induction q with
  | nil => simp at hc
  | cons x q ih =>
    intro b
    rw [List.foldl_cons]
    rcases List.mem_cons.mp hc with rfl | hx
    · exact subBB_trans (subBB_join_right b c) (foldl_join_sub_init q _)
    · exact ih hx _

theorem foldl_join_sub_of_all {q : List BBox} {t : BBox}
    (h : ∀ x ∈ q, subBB x t) : ∀ b, subBB b t → subBB (q.foldl BBox.joinBB b) t := by
  induction q with
  | nil => intro b hb; exact hb
  | cons x q ih =>
    intro b hb
    rw [List.foldl_cons]
    apply ih (fun y hy => h y (List.mem_cons_of_mem _ hy))
    obtain ⟨x1, y1, z1, w1⟩ := hb
    obtain ⟨x2, y2, z2, w2⟩ := h x (List.mem_cons_self _ _)
    unfold BBox.joinBB
    exact ⟨le_min x1 x2, le_min y1 y2, max_le z1 z2, max_le w1 w2⟩

theorem Union_sub_mem {q : List BBox} {ob c : BBox}
    (hu : BBox.Union q = some ob) (hc : c ∈ q) : subBB c ob := by
  cases q with
  | nil => simp [BBox.Union] at hu
  | cons q0 qs =>
    unfold BBox.Union at hu
    injection hu with h
    subst h
    rcases List.mem_cons.mp hc with rfl | hx
    · exact foldl_join_sub_init qs c
    · exact foldl_join_sub_mem hx q0

theorem Union_sub_of_all {q : List BBox} {ob t : BBox}
    (hu : BBox.Union q = some ob) (h : ∀ x ∈ q, subBB x t) : subBB ob t := by
  cases q with
  | nil => simp [BBox.Union] at hu
  | cons q0 qs =>
    unfold BBox.Union at hu
    injection hu with h2
    subst h2
    exact foldl_join_sub_of_all (fun y hy => h y (List.mem_cons_of_mem _ hy)) q0
      (h q0 (List.mem_cons_self _ _))

theorem posBB_mono {a b : BBox} (hsub : subBB a b) (ha : posBB a) : posBB b := by
  obtain ⟨x, y, z, w⟩ := hsub
  obtain ⟨hw, hh⟩ := ha
  unfold posBB BBox.width BBox.height at *
  constructor <;> linarith

theorem subBB_padded {a b : BBox} (h : subBB a b) (m : ℚ) :
    subBB (a.padded m) (b.padded m) := by
  obtain ⟨x, y, z, w⟩ := h
  unfold BBox.padded subBB
  simp only []
  constructor
  · linarith
  constructor
  · linarith
  constructor
  · linarith
  · linarith

theorem overlaps_iff (a b : BBox) :
    BBox.overlaps a b = true ↔
      max a.llx b.llx < min a.urx b.urx ∧ max a.lly b.lly < min a.ury b.ury := by
  rw [overlaps_eq]
  unfold BBox.intersection
  by_cases he : (BBox.meetBB a b).is_empty
  · rw [if_pos he]
    simp only [Option.isSome_none, Bool.false_eq_true, false_iff]
    unfold BBox.is_empty BBox.meetBB at he
    simp only [Bool.or_eq_true, decide_eq_true_eq, ge_iff_le] at he
    rintro ⟨h1, h2⟩
    rcases he with h | h
    · exact absurd h1 (not_lt.mpr h)
    · exact absurd h2 (not_lt.mpr h)
  · rw [if_neg he]
    simp only [Option.isSome_some, true_iff]
    unfold BBox.is_empty BBox.meetBB at he
    simp only [Bool.or_eq_true, decide_eq_true_eq, ge_iff_le, not_or] at he
    push_neg at he
    exact ⟨he.1, he.2⟩

theorem overlaps_mono {c x y : BBox} (hsub : subBB x y)
    (h : BBox.overlaps c x = true) : BBox.overlaps c y = true := by
  rw [overlaps_iff] at h ⊢
  obtain ⟨h1, h2⟩ := h
  obtain ⟨a1, a2, a3, a4⟩ := hsub
  constructor
  · calc max c.llx y.llx ≤ max c.llx x.llx := max_le_max (le_refl _) a1
      _ < min c.urx x.urx := h1
      _ ≤ min c.urx y.urx := min_le_min (le_refl _) a3
  · calc max c.lly y.lly ≤ max c.lly x.lly := max_le_max (le_refl _) a2
      _ < min c.ury x.ury := h2
      _ ≤ min c.ury y.ury := min_le_min (le_refl _) a4

theorem posBB_of_overlaps {c x : BBox} (h : BBox.overlaps c x = true) : posBB c := by
  rw [overlaps_iff] at h
  obtain ⟨h1, h2⟩ := h
  unfold posBB BBox.width BBox.height
  constructor
  · have := lt_of_le_of_lt (le_max_left c.llx x.llx) (lt_of_lt_of_le h1 (min_le_left _ _))
    linarith
  · have := lt_of_le_of_lt (le_max_left c.lly x.lly) (lt_of_lt_of_le h2 (min_le_left _ _))
    linarith

theorem overlaps_padded_of_sub {c b : BBox} {m : ℚ} (hsub : subBB c b)
    (hc : posBB c) (hm : 0 ≤ m) : BBox.overlaps c (b.padded m) = true := by
  rw [overlaps_iff]
  obtain ⟨a1, a2, a3, a4⟩ := hsub
  obtain ⟨hw, hh⟩ := hc
  unfold BBox.width at hw
  unfold BBox.height at hh
  unfold BBox.padded
  simp only []
  constructor
  · rw [max_eq_left (by linarith), min_eq_left (by linarith)]
    linarith
  · rw [max_eq_left (by linarith), min_eq_left (by linarith)]
    linarith

theorem area_eq_of_sub_of_le {b u : BBox} (hpos : posBB b) (hsub : subBB b u)
    (harea : u.area ≤ b.area) : u = b := by
  obtain ⟨a1, a2, a3, a4⟩ := hsub
  obtain ⟨hw, hh⟩ := hpos
  have hwu : b.width ≤ u.width := by unfold BBox.width at *; linarith
  have hhu : b.height ≤ u.height := by unfold BBox.height at *; linarith
  have h1 : b.width * b.height ≤ b.width * u.height :=
    mul_le_mul_of_nonneg_left hhu (le_of_lt hw)
  have h2 : b.width * u.height ≤ u.width * u.height :=
    mul_le_mul_of_nonneg_right hwu (by linarith)
  unfold BBox.area at harea
  have heq1 : u.width * u.height = b.width * b.height := le_antisymm harea (le_trans h1 h2)
  have hww : u.width = b.width := by
    have h3 : b.width * u.height = b.width * b.height := le_antisymm (by linarith) h1
    have hhu' : u.height = b.height := by
      have := mul_left_cancel₀ (ne_of_gt hw) h3
      linarith
    have h4 : u.width * u.height = b.width * u.height := by rw [heq1, h3]
    have := mul_right_cancel₀ (by rw [hhu']; exact ne_of_gt hh) h4
    linarith
  have hhh : u.height = b.height := by
    have h3 : b.width * u.height = b.width * b.height := le_antisymm (by linarith) h1
    have := mul_left_cancel₀ (ne_of_gt hw) h3
    linarith
  unfold BBox.width at hww
  unfold BBox.height at hhh
  cases b with
  | mk bllx blly burx bury =>
    cases u with
    | mk ullx ully uurx uury =>
      simp only [] at *
      simp only [BBox.mk.injEq]
      constructor
      · linarith
      constructor
      · linarith
      constructor
      · linarith
      · linarith

theorem posBB_area {b : BBox} (h : posBB b) : 0 < b.area :=
  mul_pos h.1 h.2

theorem bbAt_lt {l : List BBox} {i : Nat} (h : i < l.length) : bbAt l i = l[i] :=
  List.getD_eq_getElem l _ h

theorem passTables_length (T : List BBox) (m : ℚ) (C : List BBox) :
    (passTables T m C).length = T.length := by
  unfold passTables
  rw [List.length_map, List.length_range]

theorem bbAt_passTables {T : List BBox} {m : ℚ} {C : List BBox} {i : Nat}
    (h : i < T.length) : bbAt (passTables T m C) i = stepTable T m C i := by
  unfold passTables
  rw [bbAt_lt (by rw [List.length_map, List.length_range]; exact h)]
  rw [List.getElem_map, List.getElem_range]

theorem mem_ovlTables {T : List BBox} {m : ℚ} {c : BBox} {j : Nat} :
    j ∈ ovlTables T m c ↔
      j < T.length ∧ BBox.overlaps c ((bbAt T j).padded m) = true := by
  unfold ovlTables
  rw [List.mem_filter, List.mem_range]

theorem mem_queuedTo {T : List BBox} {m : ℚ} {C : List BBox} {i : Nat} {c : BBox} :
    c ∈ queuedTo T m C i ↔ c ∈ C ∧ ovlTables T m c = [i] := by
  unfold queuedTo
  rw [List.mem_filter]
  simp

theorem mem_remainingOf {T : List BBox} {m : ℚ} {C : List BBox} {c : BBox} :
    c ∈ remainingOf T m C ↔ c ∈ C ∧ ovlTables T m c = [] := by
  unfold remainingOf
  rw [List.mem_filter]
  simp

theorem Union_ne_nil {q : List BBox} {ob : BBox} (h : BBox.Union q = some ob) :
    q ≠ [] := by
  intro hq
  subst hq
  simp [BBox.Union] at h

theorem join_eq_of_no_growth {t ob : BBox} (hpos : posBB t)
    (hratio : ¬ 1 < (BBox.union t ob).area / t.area) : BBox.union t ob = t := by
  have harea : (BBox.union t ob).area ≤ t.area := by
    by_contra hlt
    push_neg at hlt
    exact hratio ((one_lt_div (posBB_area hpos)).mpr hlt)
  exact area_eq_of_sub_of_le hpos (subBB_join_left t ob) harea

theorem stepTable_sub (T : List BBox) (m : ℚ) (C : List BBox) (i : Nat) :
    subBB (bbAt T i) (stepTable T m C i) := by
  unfold stepTable
  cases hu : BBox.Union (queuedTo T m C i) with
  | none => exact subBB_refl _
  | some ob =>
    simp only []
    by_cases hr : 1 < (BBox.union (bbAt T i) ob).area / (bbAt T i).area
    · rw [if_pos hr]
      exact subBB_join_left _ _
    · rw [if_neg hr]
      exact subBB_refl _

theorem queued_sub_stepTable {T : List BBox} {m : ℚ} {C : List BBox} {i : Nat}
    {c : BBox} (hpos : posBB (bbAt T i)) (hc : c ∈ queuedTo T m C i) :
    subBB c (stepTable T m C i) := by
  unfold stepTable
  cases hu : BBox.Union (queuedTo T m C i) with
  | none =>
    cases hq : queuedTo T m C i with
    | nil => rw [hq] at hc; simp at hc
    | cons x xs => rw [hq] at hu; simp [BBox.Union] at hu
  | some ob =>
    simp only []
    have hcob : subBB c ob := Union_sub_mem hu hc
    by_cases hr : 1 < (BBox.union (bbAt T i) ob).area / (bbAt T i).area
    · rw [if_pos hr]
      exact subBB_trans hcob (subBB_join_right _ _)
    · rw [if_neg hr]
      have := join_eq_of_no_growth hpos hr
      rw [← this]
      exact subBB_trans hcob (subBB_join_right _ _)

theorem queued_sub_of_not_extends {T : List BBox} {m : ℚ} {C : List BBox} {i : Nat}
    {c : BBox} (hpos : posBB (bbAt T i)) (hext : extendsAt T m C i = false)
    (hc : c ∈ queuedTo T m C i) : subBB c (bbAt T i) := by
  unfold extendsAt at hext
  cases hu : BBox.Union (queuedTo T m C i) with
  | none =>
    cases hq : queuedTo T m C i with
    | nil => rw [hq] at hc; simp at hc
    | cons x xs => rw [hq] at hu; simp [BBox.Union] at hu
  | some ob =>
    rw [hu] at hext
    simp only [decide_eq_false_iff_not] at hext
    have hcob : subBB c ob := Union_sub_mem hu hc
    have := join_eq_of_no_growth hpos hext
    rw [← this]
    exact subBB_trans hcob (subBB_join_right _ _)

theorem ovlTables_mono {T T' : List BBox} {m : ℚ} {c : BBox}
    (hlen : T'.length = T.length)
    (hgrow : ∀ i, i < T.length → subBB (bbAt T i) (bbAt T' i)) :
    ∀ j ∈ ovlTables T m c, j ∈ ovlTables T' m c := by
  intro j hj
  rw [mem_ovlTables] at hj ⊢
  refine ⟨by omega, ?_⟩
  exact overlaps_mono (subBB_padded (hgrow j hj.1) m) hj.2

theorem ovlTables_length_mono {T T' : List BBox} {m : ℚ} {c : BBox}
    (hlen : T'.length = T.length)
    (hgrow : ∀ i, i < T.length → subBB (bbAt T i) (bbAt T' i)) :
    (ovlTables T m c).length ≤ (ovlTables T' m c).length := by
  unfold ovlTables
  rw [hlen]
  apply List.Sublist.length_le
  apply List.monotone_filter_right
  intro j hj
  simp only [decide_eq_true_eq] at hj ⊢
  by_cases hjl : j < T.length
  · exact overlaps_mono (subBB_padded (hgrow j hjl) m) hj
  · have h1 : bbAt T j = ⟨0, 0, 0, 0⟩ := by
      unfold bbAt
      rw [List.getD_eq_default]
      omega
    have h2 : bbAt T' j = ⟨0, 0, 0, 0⟩ := by
      unfold bbAt
      rw [List.getD_eq_default]
      omega
    rw [h2, ← h1]
    exact hj

theorem AccItem_mono {T T' : List BBox} {m : ℚ} {c : BBox}
    (hlen : T'.length = T.length)
    (hgrow : ∀ i, i < T.length → subBB (bbAt T i) (bbAt T' i))
    (h : AccItem T m c) : AccItem T' m c := by
  rcases h with ⟨i, hi, hsub⟩ | hlen2
  · exact Or.inl ⟨i, by omega, subBB_trans hsub (hgrow i hi)⟩
  · exact Or.inr (le_trans hlen2 (ovlTables_length_mono hlen hgrow))

theorem remaining_length_lt {T : List BBox} {m : ℚ} {C : List BBox}
    (h : passExtended T m C = true) : (remainingOf T m C).length < C.length := by
  unfold passExtended at h
  rw [List.any_eq_true] at h
  obtain ⟨i, _, hext⟩ := h
  unfold extendsAt at hext
  cases hu : BBox.Union (queuedTo T m C i) with
  | none => rw [hu] at hext; simp at hext
  | some ob =>
    have hne := Union_ne_nil hu
    cases hq : queuedTo T m C i with
    | nil => exact absurd hq hne
    | cons c cs =>
      have hcmem : c ∈ queuedTo T m C i := by rw [hq]; exact List.mem_cons_self _ _
      rw [mem_queuedTo] at hcmem
      unfold remainingOf
      rw [List.length_filter_lt_length_iff_exists]
      exact ⟨c, hcmem.1, by simp [hcmem.2]⟩

theorem extendLoopFuel_spec (m : ℚ) :
    ∀ (fuel : Nat) (C T C0 : List BBox),
      C.length < fuel →
      (∀ i, i < T.length → posBB (bbAt T i)) →
      (∀ c ∈ C0, c ∈ C ∨ AccItem T m c) →
      (extendLoopFuel fuel T m C).length = T.length ∧
      (∀ i, i < T.length →
        subBB (bbAt T i) (bbAt (extendLoopFuel fuel T m C) i) ∧
        posBB (bbAt (extendLoopFuel fuel T m C) i)) ∧
      (∀ c ∈ C0, settledItem (extendLoopFuel fuel T m C) m c) := by
  intro fuel
  induction fuel with
  | zero => intro C T C0 h; omega
  | succ fuel ih =>
    intro C T C0 hfuel hpos hacc
    unfold extendLoopFuel
    by_cases hp : passExtended T m C = true
    · rw [if_pos hp]
      have hlen' := passTables_length T m C
      have hgrow : ∀ i, i < T.length → subBB (bbAt T i) (bbAt (passTables T m C) i) := by
        intro i hi
        rw [bbAt_passTables hi]
        exact stepTable_sub T m C i
      have hpos' : ∀ i, i < (passTables T m C).length →
          posBB (bbAt (passTables T m C) i) := by
        intro i hi
        rw [hlen'] at hi
        exact posBB_mono (hgrow i hi) (hpos i hi)
      have hfuel' : (remainingOf T m C).length < fuel := by
        have := remaining_length_lt hp
        omega
      have hacc' : ∀ c ∈ C0, c ∈ remainingOf T m C ∨ AccItem (passTables T m C) m c := by
        intro c hc
        rcases hacc c hc with hcC | hAcc
        · cases hovl : ovlTables T m c with
          | nil => exact Or.inl (mem_remainingOf.mpr ⟨hcC, hovl⟩)
          | cons j rest =>
            cases rest with
            | nil =>
              have hq : c ∈ queuedTo T m C j := mem_queuedTo.mpr ⟨hcC, hovl⟩
              have hjlen : j < T.length := by
                have hmem : j ∈ ovlTables T m c := by
                  rw [hovl]
                  exact List.mem_cons_self _ _
                exact (mem_ovlTables.mp hmem).1
              refine Or.inr (Or.inl ⟨j, by omega, ?_⟩)
              rw [bbAt_passTables hjlen]
              exact queued_sub_stepTable (hpos j hjlen) hq
            | cons k rest2 =>
              refine Or.inr (AccItem_mono hlen' hgrow (Or.inr ?_))
              rw [hovl]
              simp only [List.length_cons]
              omega
        · exact Or.inr (AccItem_mono hlen' hgrow hAcc)
      obtain ⟨r1, r2, r3⟩ := ih (remainingOf T m C) (passTables T m C) C0 hfuel'
        hpos' hacc'
      refine ⟨by rw [r1, hlen'], ?_, r3⟩
      intro i hi
      have hi' : i < (passTables T m C).length := by omega
      exact ⟨subBB_trans (hgrow i hi) (r2 i hi').1, (r2 i hi').2⟩
    · rw [if_neg hp]
      have hfalse : passExtended T m C = false := by simpa using hp
      refine ⟨rfl, fun i hi => ⟨subBB_refl _, hpos i hi⟩, ?_⟩
      intro c hc
      rcases hacc c hc with hcC | hAcc
      · cases hovl : ovlTables T m c with
        | nil => exact Or.inl hovl
        | cons j rest =>
          cases rest with
          | nil =>
            have hq : c ∈ queuedTo T m C j := mem_queuedTo.mpr ⟨hcC, hovl⟩
            have hjlen : j < T.length := by
              have hmem : j ∈ ovlTables T m c := by
                rw [hovl]
                exact List.mem_cons_self _ _
              exact (mem_ovlTables.mp hmem).1
            have hext : extendsAt T m C j = false := by
              unfold passExtended at hfalse
              rw [List.any_eq_false] at hfalse
              simpa using hfalse j (List.mem_range.mpr hjlen)
            exact Or.inr (Or.inl ⟨j, hjlen,
              queued_sub_of_not_extends (hpos j hjlen) hext hq⟩)
          | cons k rest2 =>
            refine Or.inr (Or.inr ?_)
            rw [hovl]
            simp only [List.length_cons]
            omega
      · exact Or.inr hAcc

theorem pass_not_extended_of_settled {R : List BBox} {m : ℚ} {C : List BBox}
    (hm : 0 ≤ m)
    (hpos : ∀ i, i < R.length → posBB (bbAt R i))
    (hset : ∀ c ∈ C, settledItem R m c) :
    passExtended R m C = false := by
  by_contra h
  have h' : passExtended R m C = true := by simpa using h
  unfold passExtended at h'
  rw [List.any_eq_true] at h'
  obtain ⟨i, hirange, hext⟩ := h'
  have hi : i < R.length := List.mem_range.mp hirange
  unfold extendsAt at hext
  cases hu : BBox.Union (queuedTo R m C i) with
  | none => rw [hu] at hext; simp at hext
  | some ob =>
    rw [hu] at hext
    simp only [decide_eq_true_eq] at hext
    have hall : ∀ x ∈ queuedTo R m C i, subBB x (bbAt R i) := by
      intro x hx
      have hxq := mem_queuedTo.mp hx
      have hxo : BBox.overlaps x ((bbAt R i).padded m) = true := by
        have hmem : i ∈ ovlTables R m x := by
          rw [hxq.2]
          exact List.mem_cons_self _ _
        exact (mem_ovlTables.mp hmem).2
      have hposx : posBB x := posBB_of_overlaps hxo
      rcases hset x hxq.1 with hovl | hAcc
      · rw [hxq.2] at hovl
        simp at hovl
      · rcases hAcc with ⟨j, hj, hsub⟩ | hlen2
        · have hj2 : j ∈ ovlTables R m x :=
            mem_ovlTables.mpr ⟨hj, overlaps_padded_of_sub hsub hposx hm⟩
          rw [hxq.2] at hj2
          simp at hj2
          rw [← hj2]
          exact hsub
        · rw [hxq.2] at hlen2
          simp at hlen2
    have hobsub : subBB ob (bbAt R i) := Union_sub_of_all hu hall
    have habs : BBox.union (bbAt R i) ob = bbAt R i := join_absorb hobsub
    rw [habs] at hext
    rw [div_self (ne_of_gt (posBB_area (hpos i hi)))] at hext
    exact absurd hext (by norm_num)

theorem extendLoopFuel_succ (n : Nat) (T : List BBox) (m : ℚ) (C : List BBox) :
    extendLoopFuel (n + 1) T m C =
      if passExtended T m C then
        extendLoopFuel n (passTables T m C) m (remainingOf T m C)
      else T := rfl

theorem extendLoop_idem (T : List BBox) (m : ℚ) (C : List BBox)
    (hm : 0 ≤ m) (hpos : ∀ i, i < T.length → posBB (bbAt T i)) :
    extendLoop (extendLoop T m C) m C = extendLoop T m C := by
  obtain ⟨r1, r2, r3⟩ := extendLoopFuel_spec m (C.length + 1) C T C (by omega) hpos
    (fun c hc => Or.inl hc)
  have hER : extendLoop T m C = extendLoopFuel (C.length + 1) T m C := rfl
  have hposR : ∀ i, i < (extendLoopFuel (C.length + 1) T m C).length →
      posBB (bbAt (extendLoopFuel (C.length + 1) T m C) i) := by
    intro i hi
    rw [r1] at hi
    exact (r2 i hi).2
  have hflag : passExtended (extendLoopFuel (C.length + 1) T m C) m C = false :=
    pass_not_extended_of_settled hm hposR r3
  rw [hER]
  show extendLoopFuel (C.length + 1) (extendLoopFuel (C.length + 1) T m C) m C =
    extendLoopFuel (C.length + 1) T m C
  rw [extendLoopFuel_succ, if_neg (by rw [hflag]; simp)]

theorem writeBack_cons (a : Anno) (rest : List Anno) (final : List BBox) :
    writeBack (a :: rest) final =
      if a.type = "Table" then
        { a with bbox := final.headD a.bbox } :: writeBack rest final.tail
      else a :: writeBack rest final := rfl

theorem writeBack_cons_pos {a : Anno} (rest : List Anno) (final : List BBox)
    (ht : a.type = "Table") :
    writeBack (a :: rest) final =
      { a with bbox := final.headD a.bbox } :: writeBack rest final.tail := by
  rw [writeBack_cons, if_pos ht]

theorem writeBack_cons_neg {a : Anno} (rest : List Anno) (final : List BBox)
    (ht : ¬ a.type = "Table") :
    writeBack (a :: rest) final = a :: writeBack rest final := by
  rw [writeBack_cons, if_neg ht]

theorem writeBack_tables_bbox : ∀ (anns : List Anno) (final : List BBox),
    final.length = (anns.filter fun a => a.type = "Table").length →
    ((writeBack anns final).filter fun a => a.type = "Table").map Anno.bbox =
      final := by
  intro anns
  induction anns with
  | nil =>
    intro final h
    simp only [List.filter_nil, List.length_nil] at h
    rw [List.length_eq_zero.mp h]
    rfl
  | cons a rest ih =>
    intro final h
    by_cases ht : a.type = "Table"
    · rw [List.filter_cons_of_pos (by simpa using ht), List.length_cons] at h
      cases final with
      | nil => simp at h
      | cons f0 ftail =>
        rw [List.length_cons] at h
        rw [writeBack_cons_pos rest _ ht]
        rw [List.filter_cons_of_pos (by simpa using ht)]
        simp only [List.map_cons, List.headD_cons, List.tail_cons]
        rw [ih ftail (by omega)]
    · rw [List.filter_cons_of_neg (by simpa using ht)] at h
      rw [writeBack_cons_neg rest _ ht]
      rw [List.filter_cons_of_neg (by simpa using ht)]
      exact ih final h

theorem writeBack_writeBack : ∀ (anns : List Anno) (final : List BBox),
    writeBack (writeBack anns final) final = writeBack anns final := by
  intro anns
  induction anns with
  | nil => intro final; rfl
  | cons a rest ih =>
    intro final
    by_cases ht : a.type = "Table"
    · rw [writeBack_cons_pos rest final ht]
      rw [writeBack_cons_pos (writeBack rest final.tail) final
        (show Anno.type { a with bbox := final.headD a.bbox } = "Table" from ht)]
      rw [ih final.tail]
      cases final with
      | nil => rfl
      | cons f0 ftail => rfl
    · rw [writeBack_cons_neg rest final ht]
      rw [writeBack_cons_neg (writeBack rest final) final ht]
      rw [ih final]

theorem posBB_tables {anns : List Anno}
    (hpos : ∀ a ∈ anns, a.type = "Table" → posBB a.bbox) :
    ∀ i, i < ((anns.filter fun a => a.type = "Table").map Anno.bbox).length →
      posBB (bbAt ((anns.filter fun a => a.type = "Table").map Anno.bbox) i) := by
  intro i hi
  rw [bbAt_lt hi]
  have hi2 : i < (anns.filter fun a => a.type = "Table").length := by
    simpa using hi
  rw [List.getElem_map]
  have hmem : (anns.filter fun a => a.type = "Table")[i] ∈
      anns.filter fun a => a.type = "Table" := List.getElem_mem _
  have hm2 := List.mem_filter.mp hmem
  exact hpos _ hm2.1 (by simpa using hm2.2)

/-- C4: `extend_table_bboxes` is idempotent when every `Table` annotation
has a bbox of positive width and height and the margin is non-negative:
running the extension a second time on its own output changes nothing,
because after the loop terminates every remaining outline candidate that
overlaps exactly one (padded) table already lies inside that table, so no
pass can grow any table further. -/
theorem C4_table_extension_idempotent (anns : List Anno) (nonmarked : List LItem)
    (margin : ℚ) (hm : 0 ≤ margin)
    (hpos : ∀ a ∈ anns, a.type = "Table" → posBB a.bbox) :
    extend_table_bboxes (extend_table_bboxes anns nonmarked margin) nonmarked margin =
      extend_table_bboxes anns nonmarked margin := by
  simp only [extend_table_bboxes]
  have hposT := posBB_tables hpos
  obtain ⟨r1, _, _⟩ := extendLoopFuel_spec margin
    (((outlineCandidates nonmarked).map from_layout_item).length + 1)
    ((outlineCandidates nonmarked).map from_layout_item)
    ((anns.filter fun a => a.type = "Table").map Anno.bbox)
    ((outlineCandidates nonmarked).map from_layout_item)
    (by omega) hposT (fun c hc => Or.inl hc)
  have htabs :
      ((writeBack anns (extendLoop
          ((anns.filter fun a => a.type = "Table").map Anno.bbox) margin
          ((outlineCandidates nonmarked).map from_layout_item))).filter
        fun a => a.type = "Table").map Anno.bbox =
      extendLoop ((anns.filter fun a => a.type = "Table").map Anno.bbox) margin
        ((outlineCandidates nonmarked).map from_layout_item) := by
    apply writeBack_tables_bbox
    show (extendLoopFuel _ _ _ _).length = _
    rw [r1]
    simp
  rw [htabs]
  rw [extendLoop_idem ((anns.filter fun a => a.type = "Table").map Anno.bbox) margin
    ((outlineCandidates nonmarked).map from_layout_item) hm hposT]
  exact writeBack_writeBack anns _

theorem C4_table_extension_idempotent_witness :
    (0 : ℚ) ≤ 4 ∧
    extend_table_bboxes
      (extend_table_bboxes
        [⟨"Table", ⟨0, 0, 10, 10⟩⟩, ⟨"Text", ⟨20, 20, 30, 30⟩⟩]
        [⟨LKind.rect, ⟨8, 8, 14, 14⟩⟩, ⟨LKind.chr, ⟨0, 0, 1, 1⟩⟩] 4)
      [⟨LKind.rect, ⟨8, 8, 14, 14⟩⟩, ⟨LKind.chr, ⟨0, 0, 1, 1⟩⟩] 4 =
    extend_table_bboxes
      [⟨"Table", ⟨0, 0, 10, 10⟩⟩, ⟨"Text", ⟨20, 20, 30, 30⟩⟩]
      [⟨LKind.rect, ⟨8, 8, 14, 14⟩⟩, ⟨LKind.chr, ⟨0, 0, 1, 1⟩⟩] 4 :=
  ⟨by norm_num,
   C4_table_extension_idempotent
     [⟨"Table", ⟨0, 0, 10, 10⟩⟩, ⟨"Text", ⟨20, 20, 30, 30⟩⟩]
     [⟨LKind.rect, ⟨8, 8, 14, 14⟩⟩, ⟨LKind.chr, ⟨0, 0, 1, 1⟩⟩] 4
     (by norm_num)
     (by
       intro a ha ht
       fin_cases ha
       · exact ⟨by show (0:ℚ) < 10 - 0; norm_num, by show (0:ℚ) < 10 - 0; norm_num⟩
       · simp at ht)⟩

end TPdf
